import Mathlib

/-!
# Verification of `compute_nearest_neighbours_openmp.cpp`

A shallow embedding of the core of `src/use_bhtsne/compute_nearest_neighbours_openmp.cpp`
(the `dijkstra` struct: graph ingestion, vertex-id normalization, the weight transform,
the K-truncated Dijkstra search, and the placeholder padding), together with proofs of
the specified properties.

Modelling conventions:
* C++ `double` values are idealized as elements of a `LinearOrderedField α`
  (instantiated at `ℝ` for the weight transform, which uses `Real.log`, and at `ℚ`
  for concrete executable instances).
* The scratch arrays `current_time_` / `current_distance_` are modelled per search:
  after the `timer++` bump at the top of `find_nearest_neighbours`, an index `i`
  satisfies `current_time_[i] == timer` exactly when the present search has touched it,
  so the pair (array, timer) is modelled as the `Finset` of touched indices.
  `current_distance_` is a total function `ℕ → α` whose initial value (stale garbage
  from earlier searches) is an arbitrary parameter `dist0`.
* `std::set<std::pair<double,int>>` is modelled as a duplicate-free list with
  set-insert, set-erase and lexicographic-minimum extraction.
* `std::map<int,int>` is modelled as an association list in insertion order.
  In `normalize_vertex_num`, `m[k] = m.size() - 1` is modelled with the evaluation
  order realized in the program's build (the default insertion by `operator[]`
  happens first, so the stored index is the size of the map *before* insertion).
-/

set_option linter.unusedSectionVars false
set_option linter.unusedVariables false

namespace SOMap

variable {α : Type} [LinearOrderedField α]

/-- The sentinel used for "not yet reached": `static constexpr double inf = 1e15;`. -/
def inf (α : Type) [LinearOrderedField α] : α := 1e15

/-- `std::pair<double,int>::operator<`: lexicographic comparison, distance first,
vertex index as tie-break. -/
def pairLt (p q : α × ℕ) : Prop :=
  p.1 < q.1 ∨ (p.1 = q.1 ∧ p.2 < q.2)

instance (p q : α × ℕ) : Decidable (pairLt p q) := by
  unfold pairLt; infer_instance

/-- Lexicographic minimum of two `(distance, vertex)` pairs. -/
def pairMin (p q : α × ℕ) : α × ℕ :=
  if pairLt q p then q else p

/-- `*st.begin()` on the ordered set: the lexicographically least element. -/
def extractMin : List (α × ℕ) → Option (α × ℕ)
  | [] => none
  | x :: xs => some (xs.foldl pairMin x)

/-- `st.insert(x)`: no effect when the element is already present. -/
def setInsert (x : α × ℕ) (s : List (α × ℕ)) : List (α × ℕ) :=
  if x ∈ s then s else x :: s

/-- `st.erase(x)`: removes the element when present. -/
def setErase (x : α × ℕ) (s : List (α × ℕ)) : List (α × ℕ) :=
  s.erase x

/-- The per-search scratch state of `dijkstra::find_nearest_neighbours`:
the touched indices (`current_time_[i] == timer`), the tentative distances
(`current_distance_`), the frontier (`st`), and the recorded neighbour indices
(`current_neighbour_indices_[1..]`, in extraction order). -/
@[ext]
structure SearchState (α : Type) where
  touched : Finset ℕ
  dist : ℕ → α
  frontier : List (α × ℕ)
  recs : List ℕ

/-- The body of the inner `for (const auto& edge: adj_list_[best_vertex])` loop:
touch-and-initialize, conditional decrease-key (erase + insert), and the final
redundant `min` assignment, in source order. -/
def relaxEdge (b : ℕ) (s : SearchState α) (e : ℕ × α) : SearchState α :=
  let t := e.1
  let w := e.2
  let s1 := if t ∈ s.touched then s
            else { s with touched := insert t s.touched,
                          dist := Function.update s.dist t (inf α) }
  let cur := s1.dist t
  let prop := s1.dist b + w
  let s2 := if prop < cur then
              { s1 with dist := Function.update s1.dist t prop,
                        frontier := setInsert (prop, t) (setErase (cur, t) s1.frontier) }
            else s1
  { s2 with dist := Function.update s2.dist t (min (s2.dist t) (s2.dist b + w)) }

/-- Relax every edge out of the extracted vertex, in adjacency-list order. -/
def relaxNeighbours (adj : ℕ → List (ℕ × α)) (b : ℕ) (s : SearchState α) : SearchState α :=
  (adj b).foldl (relaxEdge b) s

/-- The main expansion loop `for (it = 0; it <= num_of_neighbours && not st.empty(); it++)`,
with `fuel = num_of_neighbours + 1 - it` remaining iterations.  Every extraction after
the first (`it > 0`) is recorded.  Returns the final state and the final value of `it`. -/
def searchLoop (adj : ℕ → List (ℕ × α)) : ℕ → ℕ → SearchState α → SearchState α × ℕ
  | 0, it, s => (s, it)
  | fuel + 1, it, s =>
    match extractMin s.frontier with
    | none => (s, it)
    | some m =>
      let s' := relaxNeighbours adj m.2 { s with frontier := setErase m s.frontier }
      let s'' := if 0 < it then { s' with recs := s'.recs ++ [m.2] } else s'
      searchLoop adj fuel (it + 1) s''

/-- The state just after `timer++; current_time_[v] = timer;
current_distance_[v] = 0.0; st.insert({0.0, v});`. -/
def initState (dist0 : ℕ → α) (v : ℕ) : SearchState α :=
  { touched := {v},
    dist := Function.update dist0 v 0,
    frontier := [(0, v)],
    recs := [] }

/-- `dijkstra::find_nearest_neighbours`, expansion phase: the truncated Dijkstra
run from `v` with at most `K + 1` extractions.  `dist0` is the arbitrary stale
content of `current_distance_` at entry. -/
def find_nearest_neighbours (adj : ℕ → List (ℕ × α)) (K : ℕ) (v : ℕ) (dist0 : ℕ → α) :
    SearchState α × ℕ :=
  searchLoop adj (K + 1) 0 (initState dist0 v)

/-- The `while (current_time_[cur_idx] == timer) cur_idx++;` scan: the least
untouched index that is `≥ start`. -/
def scanUntouched (touched : Finset ℕ) (start : ℕ) : ℕ :=
  if start ∈ touched then scanUntouched touched (start + 1) else start
termination_by (touched.filter (start ≤ ·)).card
decreasing_by
  apply Finset.card_lt_card
  constructor
  · intro x hx
    simp only [Finset.mem_filter] at hx ⊢
    exact ⟨hx.1, by omega⟩
  · intro hsub
    have : start ∈ touched.filter (start + 1 ≤ ·) := by
      apply hsub; simp only [Finset.mem_filter]; exact ⟨by assumption, le_refl _⟩
    simp only [Finset.mem_filter] at this
    omega

/-- The padding loop `for (; it <= num_of_neighbours; it++)`: repeatedly pick the
next untouched index, set its distance to `inf`, and record it.  Returns the
placeholder indices in order and the updated distance array. -/
def padLoop (touched : Finset ℕ) : ℕ → ℕ → (ℕ → α) → List ℕ × (ℕ → α)
  | 0, _, dist => ([], dist)
  | n + 1, cur, dist =>
    let i := scanUntouched touched cur
    let r := padLoop touched n (i + 1) (Function.update dist i (inf α))
    (i :: r.1, r.2)

/-- The full result row printed for source vertex `v`: the real records
(extractions after the first, paired with their final distances) followed by the
placeholder records (distance `inf`), exactly `K` entries. -/
def resultRow (adj : ℕ → List (ℕ × α)) (K : ℕ) (v : ℕ) (dist0 : ℕ → α) : List (ℕ × α) :=
  let r := find_nearest_neighbours adj K v dist0
  let s := r.1
  let p := padLoop s.touched (K + 1 - r.2) 0 s.dist
  (s.recs ++ p.1).map fun i => (i, p.2 i)

/-- `dijkstra::normalize_vertex_num` acting on the association-list model of
`vertex_num_to_normalized_num_`: a fresh external id is inserted with the next
dense index (the map's size before insertion); a known id returns its stored
index.  Returns the updated map and the index. -/
def normalize_vertex_num (m : List (ℕ × ℕ)) (vnum : ℕ) : List (ℕ × ℕ) × ℕ :=
  match m.lookup vnum with
  | some idx => (m, idx)
  | none => (m ++ [(vnum, m.length)], m.length)

/-- The graph under construction: the id-normalization map and the adjacency lists. -/
structure BuildGraph (α : Type) where
  mapping : List (ℕ × ℕ)
  adj : ℕ → List (ℕ × α)

/-- `adj_list_[u].push_back(e)`. -/
def pushEdge (g : ℕ → List (ℕ × α)) (u : ℕ) (e : ℕ × α) : ℕ → List (ℕ × α) :=
  Function.update g u (g u ++ [e])

/-- One `(dest_vertex, edge_w)` pair of a row: normalize the destination,
transform the weight, and append the edge to both endpoints' lists. -/
def processPair (tf : ℤ → α) (src : ℕ) (g : BuildGraph α) (p : ℕ × ℤ) : BuildGraph α :=
  let n := normalize_vertex_num g.mapping p.1
  let w := tf p.2
  { mapping := n.1,
    adj := pushEdge (pushEdge g.adj src (n.2, w)) n.2 (src, w) }

/-- One input row: normalize the source, then process each pair. -/
def processRow (tf : ℤ → α) (g : BuildGraph α) (row : ℕ × List (ℕ × ℤ)) : BuildGraph α :=
  let n := normalize_vertex_num g.mapping row.1
  row.2.foldl (processPair tf n.2) { g with mapping := n.1 }

/-- `dijkstra::read_graph` over already-parsed rows, generic in the weight
transform `tf`. -/
def read_graph (tf : ℤ → α) (rows : List (ℕ × List (ℕ × ℤ))) : BuildGraph α :=
  rows.foldl (processRow tf) ⟨[], fun _ => []⟩

/-- `dijkstra::number_of_verices` (sic): the size of the normalization map. -/
def number_of_verices (g : BuildGraph α) : ℕ :=
  g.mapping.length

/-- `dijkstra::convert_edge_w_to_weight`: `100 / log(edge_w + 1)` with the
natural logarithm, on the real idealization of `double`. -/
noncomputable def convert_edge_w_to_weight (w : ℤ) : ℝ :=
  100 / Real.log ((w : ℝ) + 1)

/-- A walk in the adjacency structure, recorded as its list of steps
`(next vertex, edge weight)`. -/
def IsWalk (adj : ℕ → List (ℕ × α)) : ℕ → List (ℕ × α) → Prop
  | _, [] => True
  | v, e :: rest => e ∈ adj v ∧ IsWalk adj e.1 rest

/-- The endpoint of a walk that starts at `v`. -/
def walkEnd (v : ℕ) : List (ℕ × α) → ℕ
  | [] => v
  | e :: rest => walkEnd e.1 rest

/-- The total weight of a walk. -/
def walkWeight (l : List (ℕ × α)) : α :=
  (l.map Prod.snd).sum

/-- `u` is reachable from `v`. -/
def Reach (adj : ℕ → List (ℕ × α)) (v u : ℕ) : Prop :=
  ∃ l, IsWalk adj v l ∧ walkEnd v l = u

/-- `u` is reachable from `v` by a walk of total weight below the sentinel `inf`. -/
def ReachIn (adj : ℕ → List (ℕ × α)) (v u : ℕ) : Prop :=
  ∃ l, IsWalk adj v l ∧ walkEnd v l = u ∧ walkWeight l < inf α

/-- `d` is the shortest-path distance from `v` to `u`: attained by some walk,
and a lower bound on the weight of every walk. -/
def ShortestDist (adj : ℕ → List (ℕ × α)) (v u : ℕ) (d : α) : Prop :=
  (∃ l, IsWalk adj v l ∧ walkEnd v l = u ∧ walkWeight l = d) ∧
  ∀ l, IsWalk adj v l → walkEnd v l = u → d ≤ walkWeight l

/-! ## Elementary facts about the frontier operations -/

lemma inf_pos : (0 : α) < inf α := by norm_num [inf]

lemma pairMin_cases (p q : α × ℕ) : pairMin p q = p ∨ pairMin p q = q := by
  unfold pairMin; split
  · exact Or.inr rfl
  · exact Or.inl rfl

lemma pairMin_fst_le_left (p q : α × ℕ) : (pairMin p q).1 ≤ p.1 := by
  unfold pairMin
  split
  · rcases ‹pairLt q p› with h | h
    · exact le_of_lt h
    · exact le_of_eq h.1
  · exact le_refl _

lemma pairMin_fst_le_right (p q : α × ℕ) : (pairMin p q).1 ≤ q.1 := by
  unfold pairMin
  split
  · exact le_refl _
  · have h := ‹¬ pairLt q p›
    unfold pairLt at h
    push_neg at h
    exact h.1

lemma foldl_pairMin_mem (xs : List (α × ℕ)) : ∀ x, xs.foldl pairMin x ∈ x :: xs := by
  induction xs with
  | nil => intro x; simp
  | cons y ys ih =>
    intro x
    rw [List.foldl_cons]
    rcases List.mem_cons.mp (ih (pairMin x y)) with h1 | h1
    · rcases pairMin_cases x y with hc | hc <;> rw [h1, hc] <;> simp
    · simp only [List.mem_cons]
      exact Or.inr (Or.inr h1)

lemma foldl_pairMin_le_start (xs : List (α × ℕ)) : ∀ x, (xs.foldl pairMin x).1 ≤ x.1 := by
  induction xs with
  | nil => intro x; exact le_refl _
  | cons y ys ih =>
    intro x
    rw [List.foldl_cons]
    exact le_trans (ih (pairMin x y)) (pairMin_fst_le_left x y)

lemma foldl_pairMin_le (xs : List (α × ℕ)) :
    ∀ x p, p ∈ x :: xs → (xs.foldl pairMin x).1 ≤ p.1 := by
  induction xs with
  | nil =>
    intro x p hp
    rcases List.mem_cons.mp hp with rfl | h
    · exact le_refl _
    · cases h
  | cons y ys ih =>
    intro x p hp
    rw [List.foldl_cons]
    rcases List.mem_cons.mp hp with h | h
    · rw [h]
      exact le_trans (foldl_pairMin_le_start ys (pairMin x y)) (pairMin_fst_le_left x y)
    rcases List.mem_cons.mp h with h2 | h2
    · rw [h2]
      exact le_trans (foldl_pairMin_le_start ys (pairMin x y)) (pairMin_fst_le_right x y)
    · exact ih (pairMin x y) p (List.mem_cons.mpr (Or.inr h2))

lemma extractMin_eq_none {s : List (α × ℕ)} : extractMin s = none ↔ s = [] := by
  cases s <;> simp [extractMin]

lemma extractMin_mem {s : List (α × ℕ)} {m : α × ℕ} (h : extractMin s = some m) : m ∈ s := by
  cases s with
  | nil => simp [extractMin] at h
  | cons x xs =>
    simp only [extractMin, Option.some.injEq] at h
    exact h ▸ foldl_pairMin_mem xs x

lemma extractMin_le {s : List (α × ℕ)} {m : α × ℕ} (h : extractMin s = some m) :
    ∀ p ∈ s, m.1 ≤ p.1 := by
  cases s with
  | nil => simp [extractMin] at h
  | cons x xs =>
    simp only [extractMin, Option.some.injEq] at h
    exact fun p hp => h ▸ foldl_pairMin_le xs x p hp

lemma mem_setInsert {x p : α × ℕ} {s : List (α × ℕ)} :
    p ∈ setInsert x s ↔ p = x ∨ p ∈ s := by
  unfold setInsert
  split
  · constructor
    · exact Or.inr
    · rintro (rfl | h)
      · assumption
      · exact h
  · simp

lemma setInsert_nodup {x : α × ℕ} {s : List (α × ℕ)} (h : s.Nodup) : (setInsert x s).Nodup := by
  unfold setInsert
  split
  · exact h
  · exact List.nodup_cons.mpr ⟨by assumption, h⟩

lemma mem_setErase {x p : α × ℕ} {s : List (α × ℕ)} (h : s.Nodup) :
    p ∈ setErase x s ↔ p ∈ s ∧ p ≠ x := by
  unfold setErase
  rw [List.Nodup.mem_erase_iff h, and_comm]

lemma setErase_subset {x p : α × ℕ} {s : List (α × ℕ)} (hp : p ∈ setErase x s) : p ∈ s :=
  List.erase_subset _ _ hp

lemma setErase_nodup {x : α × ℕ} {s : List (α × ℕ)} (h : s.Nodup) : (setErase x s).Nodup :=
  h.erase x

lemma setErase_of_not_mem {x : α × ℕ} {s : List (α × ℕ)} (h : x ∉ s) : setErase x s = s :=
  List.erase_of_not_mem h

/-! ## Elementary facts about walks -/

@[simp] lemma isWalk_nil {adj : ℕ → List (ℕ × α)} {v : ℕ} : IsWalk adj v [] := trivial

lemma isWalk_cons {adj : ℕ → List (ℕ × α)} {v : ℕ} {e : ℕ × α} {l : List (ℕ × α)} :
    IsWalk adj v (e :: l) ↔ e ∈ adj v ∧ IsWalk adj e.1 l := Iff.rfl

@[simp] lemma walkWeight_nil : walkWeight ([] : List (ℕ × α)) = 0 := rfl

lemma walkWeight_cons (e : ℕ × α) (l : List (ℕ × α)) :
    walkWeight (e :: l) = e.2 + walkWeight l := by
  simp [walkWeight]

lemma walkWeight_append (l1 l2 : List (ℕ × α)) :
    walkWeight (l1 ++ l2) = walkWeight l1 + walkWeight l2 := by
  simp [walkWeight]

lemma walkEnd_append (v : ℕ) (l1 l2 : List (ℕ × α)) :
    walkEnd v (l1 ++ l2) = walkEnd (walkEnd v l1) l2 := by
  induction l1 generalizing v with
  | nil => rfl
  | cons e rest ih => simp [walkEnd, ih]

lemma isWalk_append {adj : ℕ → List (ℕ × α)} {v : ℕ} {l1 l2 : List (ℕ × α)}
    (h1 : IsWalk adj v l1) (h2 : IsWalk adj (walkEnd v l1) l2) : IsWalk adj v (l1 ++ l2) := by
  induction l1 generalizing v with
  | nil => exact h2
  | cons e rest ih =>
    exact ⟨h1.1, ih h1.2 h2⟩

lemma walkWeight_nonneg {adj : ℕ → List (ℕ × α)}
    (hpos : ∀ u, ∀ e ∈ adj u, (0 : α) < e.2) :
    ∀ {v : ℕ} {l : List (ℕ × α)}, IsWalk adj v l → 0 ≤ walkWeight l := by
  intro v l
  induction l generalizing v with
  | nil => intro _; simp
  | cons e rest ih =>
    intro hw
    rw [walkWeight_cons]
    have h1 := hpos v e hw.1
    have h2 := ih hw.2
    linarith

lemma reach_refl (adj : ℕ → List (ℕ × α)) (v : ℕ) : Reach adj v v :=
  ⟨[], trivial, rfl⟩

lemma reach_step {adj : ℕ → List (ℕ × α)} {v u : ℕ} {e : ℕ × α}
    (h : Reach adj v u) (he : e ∈ adj u) : Reach adj v e.1 := by
  obtain ⟨l, hw, hend⟩ := h
  refine ⟨l ++ [e], isWalk_append hw ?_, ?_⟩
  · rw [hend]; exact ⟨he, trivial⟩
  · rw [walkEnd_append, hend]; rfl

/-- Every walk from inside a vertex list `D` to a vertex outside it crosses an
edge leaving `D`; the weight of the walk up to and including that edge bounds
the weight of the whole walk from below (for positive weights). -/
lemma walk_exit {adj : ℕ → List (ℕ × α)}
    (hpos : ∀ u, ∀ e ∈ adj u, (0 : α) < e.2) (D : List ℕ) :
    ∀ (l : List (ℕ × α)) (v : ℕ), v ∈ D → IsWalk adj v l → walkEnd v l ∉ D →
      ∃ b e l1, b ∈ D ∧ e ∈ adj b ∧ e.1 ∉ D ∧ IsWalk adj v l1 ∧ walkEnd v l1 = b ∧
        walkWeight l1 + e.2 ≤ walkWeight l := by
  intro l
  induction l with
  | nil =>
    intro v hv _ hend
    exact absurd hv hend
  | cons e rest ih =>
    intro v hv hw hend
    by_cases he : e.1 ∈ D
    · obtain ⟨b, e', l1, hb, he', hout, hw1, hend1, hle⟩ := ih e.1 he hw.2 hend
      refine ⟨b, e', e :: l1, hb, he', hout, ⟨hw.1, hw1⟩, hend1, ?_⟩
      rw [walkWeight_cons, walkWeight_cons]
      linarith
    · refine ⟨v, e, [], hv, hw.1, he, trivial, rfl, ?_⟩
      rw [walkWeight_nil, walkWeight_cons, zero_add]
      have := walkWeight_nonneg hpos hw.2
      linarith

/-! ## The search invariant

`D` is the list of vertices extracted so far, in extraction order.  It equals
`v :: s.recs`, except between the extraction of a vertex and the recording of
that vertex, when it is `v :: s.recs ++ [extracted]`. -/

structure Core (adj : ℕ → List (ℕ × α)) (v : ℕ) (D : List ℕ) (s : SearchState α) : Prop where
  fnodup : s.frontier.Nodup
  fkey : ∀ p ∈ s.frontier, p.1 = s.dist p.2
  ftouch : ∀ p ∈ s.frontier, p.2 ∈ s.touched
  fnotdone : ∀ p ∈ s.frontier, p.2 ∉ D
  fbound : ∀ p ∈ s.frontier, p.1 < inf α
  fwalk : ∀ p ∈ s.frontier, ∃ l, IsWalk adj v l ∧ walkEnd v l = p.2 ∧ walkWeight l = p.1
  dtouch : ∀ b ∈ D, b ∈ s.touched
  dshort : ∀ b ∈ D, ShortestDist adj v b (s.dist b)
  dbound : ∀ b ∈ D, s.dist b < inf α
  dnodup : D.Nodup
  mono : ∀ p ∈ s.frontier, ∀ b ∈ D, s.dist b ≤ p.1
  dsorted : (D.map s.dist).Sorted (· ≤ ·)
  treach : ∀ t ∈ s.touched, Reach adj v t
  dropped : ∀ t ∈ s.touched, t ∉ D → (∀ p ∈ s.frontier, p.2 ≠ t) → s.dist t = inf α

/-- The decrease-key obligations for the edges `es` out of an extracted vertex `b`:
every such edge into a not-yet-extracted vertex with candidate distance below the
sentinel is witnessed by a frontier entry at most that candidate. -/
def Relaxed (D : List ℕ) (s : SearchState α) (b : ℕ) (es : List (ℕ × α)) : Prop :=
  ∀ e ∈ es, e.1 ∉ D → s.dist b + e.2 < inf α →
    ∃ p ∈ s.frontier, p.2 = e.1 ∧ p.1 ≤ s.dist b + e.2

/-- The full invariant between loop iterations. -/
structure Inv (adj : ℕ → List (ℕ × α)) (v : ℕ) (D : List ℕ) (s : SearchState α) : Prop where
  core : Core adj v D s
  relaxed : ∀ b ∈ D, Relaxed D s b (adj b)

/-- Case analysis of one relaxation step `relaxEdge b s e` when the source `b` is
touched and the weight is positive: either nothing changes, or a decrease-key on
an already-touched target, or a fresh touch with insertion, or a fresh touch whose
candidate distance is at least the sentinel (no insertion). -/
lemma relaxEdge_cases (b : ℕ) (s : SearchState α) (e : ℕ × α)
    (hb : b ∈ s.touched) (hw : 0 < e.2) :
    (e.1 ∈ s.touched ∧ ¬ s.dist b + e.2 < s.dist e.1 ∧ relaxEdge b s e = s) ∨
    (e.1 ∈ s.touched ∧ s.dist b + e.2 < s.dist e.1 ∧ e.1 ≠ b ∧
      relaxEdge b s e =
        { touched := s.touched,
          dist := Function.update s.dist e.1 (s.dist b + e.2),
          frontier := setInsert (s.dist b + e.2, e.1) (setErase (s.dist e.1, e.1) s.frontier),
          recs := s.recs }) ∨
    (e.1 ∉ s.touched ∧ s.dist b + e.2 < inf α ∧
      relaxEdge b s e =
        { touched := insert e.1 s.touched,
          dist := Function.update s.dist e.1 (s.dist b + e.2),
          frontier := setInsert (s.dist b + e.2, e.1) (setErase (inf α, e.1) s.frontier),
          recs := s.recs }) ∨
    (e.1 ∉ s.touched ∧ ¬ s.dist b + e.2 < inf α ∧
      relaxEdge b s e =
        { touched := insert e.1 s.touched,
          dist := Function.update s.dist e.1 (inf α),
          frontier := s.frontier,
          recs := s.recs }) := by
  by_cases ht : e.1 ∈ s.touched
  · by_cases hlt : s.dist b + e.2 < s.dist e.1
    · have hne : e.1 ≠ b := by
        intro h
        rw [h] at hlt
        linarith
      refine Or.inr (Or.inl ⟨ht, hlt, hne, ?_⟩)
      unfold relaxEdge
      simp only [ht, if_true, if_pos hlt]
      ext1
      · rfl
      · simp only [Function.update_same, Function.update_noteq (Ne.symm hne),
          Function.update_idem]
        rw [min_self]
      · rfl
      · rfl
    · refine Or.inl ⟨ht, hlt, ?_⟩
      unfold relaxEdge
      simp only [ht, if_true, if_neg hlt]
      ext1
      · rfl
      · rw [min_eq_left (not_lt.mp hlt), Function.update_eq_self]
      · rfl
      · rfl
  · have hne : e.1 ≠ b := fun h => ht (h ▸ hb)
    by_cases hlt : s.dist b + e.2 < inf α
    · refine Or.inr (Or.inr (Or.inl ⟨ht, hlt, ?_⟩))
      unfold relaxEdge
      simp only [ht, if_false, Function.update_same, Function.update_noteq (Ne.symm hne)]
      rw [if_pos hlt]
      ext1
      · rfl
      · simp only [Function.update_same, Function.update_noteq (Ne.symm hne),
          Function.update_idem]
        rw [min_self]
      · rfl
      · rfl
    · refine Or.inr (Or.inr (Or.inr ⟨ht, hlt, ?_⟩))
      unfold relaxEdge
      simp only [ht, if_false, Function.update_same, Function.update_noteq (Ne.symm hne)]
      rw [if_neg hlt]
      ext1
      · rfl
      · simp only [Function.update_same, Function.update_noteq (Ne.symm hne),
          Function.update_idem]
        rw [min_eq_left (not_lt.mp hlt)]
      · rfl
      · rfl

lemma mem_insert_erase {f : List (α × ℕ)} (hn : f.Nodup) {x y q : α × ℕ} :
    q ∈ setInsert y (setErase x f) ↔ q = y ∨ (q ∈ f ∧ q ≠ x) := by
  rw [mem_setInsert, mem_setErase hn]

/-- Preservation of the core invariant by a single relaxation of an edge out of
the last extracted vertex `b`, together with: distances of extracted vertices
are unchanged, frontier keys never increase, the touched set only grows, the
relaxed edge acquires its decrease-key witness, and the records are unchanged. -/
lemma relaxEdge_pres {adj : ℕ → List (ℕ × α)}
    (hpos : ∀ u, ∀ e ∈ adj u, (0 : α) < e.2)
    {v : ℕ} {D : List ℕ} {b : ℕ} (hbD : b ∈ D)
    {s : SearchState α} (hc : Core adj v D s)
    (hlast : ∀ x ∈ D, s.dist x ≤ s.dist b)
    {e : ℕ × α} (he : e ∈ adj b) :
    Core adj v D (relaxEdge b s e) ∧
    (∀ x ∈ D, (relaxEdge b s e).dist x = s.dist x) ∧
    (∀ p ∈ s.frontier, ∃ q ∈ (relaxEdge b s e).frontier, q.2 = p.2 ∧ q.1 ≤ p.1) ∧
    s.touched ⊆ (relaxEdge b s e).touched ∧
    (e.1 ∉ D → s.dist b + e.2 < inf α →
      ∃ q ∈ (relaxEdge b s e).frontier, q.2 = e.1 ∧ q.1 ≤ s.dist b + e.2) ∧
    (relaxEdge b s e).recs = s.recs := by
  have hb : b ∈ s.touched := hc.dtouch b hbD
  have hw : 0 < e.2 := hpos b e he
  have hreachb : Reach adj v b := hc.treach b hb
  rcases relaxEdge_cases b s e hb hw with ⟨ht, hnlt, heq⟩ | ⟨ht, hlt, hne, heq⟩ |
    ⟨ht, hlt, heq⟩ | ⟨ht, hnlt, heq⟩
  · -- already touched, no improvement: state unchanged
    rw [heq]
    refine ⟨hc, fun x _ => rfl, fun p hp => ⟨p, hp, rfl, le_refl _⟩, le_refl _, ?_, rfl⟩
    intro htD hinf
    by_cases hent : ∃ p ∈ s.frontier, p.2 = e.1
    · obtain ⟨p, hp, hpt⟩ := hent
      refine ⟨p, hp, hpt, ?_⟩
      rw [hc.fkey p hp, hpt]
      exact not_lt.mp hnlt
    · push_neg at hent
      have hdinf := hc.dropped e.1 ht htD hent
      rw [hdinf] at hnlt
      exact absurd hinf hnlt
  · -- decrease-key on an already-touched target
    set t := e.1 with hte
    set prop := s.dist b + e.2 with hprop
    set cur := s.dist t with hcur
    have htD : t ∉ D := by
      intro hmem
      have h1 := hlast t hmem
      rw [← hcur] at h1
      have h2 : cur ≤ s.dist b := h1
      have h3 : s.dist b < prop := by rw [hprop]; linarith
      exact absurd hlt (not_lt.mpr (by linarith))
    have hpropinf : prop < inf α := by
      by_cases hent : ∃ p ∈ s.frontier, p.2 = t
      · obtain ⟨p, hp, hpt⟩ := hent
        have h1 := hc.fbound p hp
        have h2 := hc.fkey p hp
        rw [hpt, ← hcur] at h2
        calc prop < cur := hlt
          _ = p.1 := h2.symm
          _ < inf α := h1
      · push_neg at hent
        have hdr := hc.dropped t ht htD hent
        rw [← hcur] at hdr
        rw [← hdr]
        exact hlt
    have hmem' : ∀ q, q ∈ (relaxEdge b s e).frontier ↔
        q = (prop, t) ∨ (q ∈ s.frontier ∧ q ≠ (cur, t)) := by
      intro q
      rw [heq]
      exact mem_insert_erase hc.fnodup
    have hvx : ∀ q ∈ s.frontier, q.2 = t → q = (cur, t) := by
      intro q hq hqt
      have hk := hc.fkey q hq
      rw [hqt, ← hcur] at hk
      calc q = (q.1, q.2) := rfl
        _ = (cur, t) := by rw [hqt, hk]
    have hdd : ∀ x ∈ D, (relaxEdge b s e).dist x = s.dist x := by
      intro x hx
      rw [heq]
      have hxt : x ≠ t := fun h => htD (h ▸ hx)
      exact Function.update_noteq hxt _ _
    have hwalkt : ∃ l, IsWalk adj v l ∧ walkEnd v l = t ∧ walkWeight l = prop := by
      obtain ⟨⟨l, hwl, hend, hwt⟩, _⟩ := hc.dshort b hbD
      refine ⟨l ++ [e], isWalk_append hwl ?_, ?_, ?_⟩
      · rw [hend]
        exact ⟨he, trivial⟩
      · rw [walkEnd_append, hend]
        rfl
      · rw [walkWeight_append, hwt, hprop]
        simp [walkWeight]
    refine ⟨?_, hdd, ?_, ?_, ?_, ?_⟩
    · constructor
      · rw [heq]
        exact setInsert_nodup (setErase_nodup hc.fnodup)
      · intro q hq
        rcases (hmem' q).mp hq with rfl | ⟨hqs, hqne⟩
        · rw [heq]
          show prop = Function.update s.dist t prop t
          exact (Function.update_same t prop s.dist).symm
        · have hqt : q.2 ≠ t := fun h => hqne (hvx q hqs h)
          rw [heq]
          simp only
          rw [Function.update_noteq hqt]
          exact hc.fkey q hqs
      · intro q hq
        rcases (hmem' q).mp hq with rfl | ⟨hqs, _⟩
        · rw [heq]; exact ht
        · rw [heq]; exact hc.ftouch q hqs
      · intro q hq
        rcases (hmem' q).mp hq with rfl | ⟨hqs, _⟩
        · exact htD
        · exact hc.fnotdone q hqs
      · intro q hq
        rcases (hmem' q).mp hq with rfl | ⟨hqs, _⟩
        · exact hpropinf
        · exact hc.fbound q hqs
      · intro q hq
        rcases (hmem' q).mp hq with rfl | ⟨hqs, _⟩
        · exact hwalkt
        · exact hc.fwalk q hqs
      · intro x hx
        rw [heq]
        exact hc.dtouch x hx
      · intro x hx
        have hs := hc.dshort x hx
        rwa [← hdd x hx] at hs
      · intro x hx
        have hs := hc.dbound x hx
        rwa [← hdd x hx] at hs
      · exact hc.dnodup
      · intro q hq x hx
        rw [hdd x hx]
        rcases (hmem' q).mp hq with rfl | ⟨hqs, _⟩
        · calc s.dist x ≤ s.dist b := hlast x hx
            _ ≤ prop := by rw [hprop]; linarith
        · exact hc.mono q hqs x hx
      · have hm : D.map (relaxEdge b s e).dist = D.map s.dist := List.map_congr_left hdd
        rw [hm]
        exact hc.dsorted
      · intro x hx
        rw [heq] at hx
        exact hc.treach x hx
      · intro x hx hxD hent
        rw [heq] at hx
        by_cases hxt : x = t
        · exfalso
          refine hent (prop, t) ((hmem' (prop, t)).mpr (Or.inl rfl)) ?_
          rw [hxt]
        · have hent' : ∀ p ∈ s.frontier, p.2 ≠ x := by
            intro p hp hpx
            refine hent p ((hmem' p).mpr (Or.inr ⟨hp, ?_⟩)) hpx
            intro hpc
            rw [hpc] at hpx
            exact hxt hpx.symm
          have hdr := hc.dropped x hx hxD hent'
          rw [heq]
          simp only
          rw [Function.update_noteq hxt]
          exact hdr
    · intro p hp
      by_cases hpt : p.2 = t
      · have hpc := hvx p hp hpt
        refine ⟨(prop, t), (hmem' _).mpr (Or.inl rfl), ?_, ?_⟩
        · rw [hpt]
        · rw [hpc]
          exact le_of_lt hlt
      · refine ⟨p, (hmem' p).mpr (Or.inr ⟨hp, ?_⟩), rfl, le_refl _⟩
        intro hpc
        rw [hpc] at hpt
        exact hpt rfl
    · rw [heq]
    · intro _ _
      exact ⟨(prop, t), (hmem' _).mpr (Or.inl rfl), rfl, le_refl _⟩
    · rw [heq]
  · -- fresh touch with insertion
    set t := e.1 with hte
    set prop := s.dist b + e.2 with hprop
    have htD : t ∉ D := fun h => ht (hc.dtouch t h)
    have hnoent : ∀ p ∈ s.frontier, p.2 ≠ t := by
      intro p hp hpt
      exact ht (hpt ▸ hc.ftouch p hp)
    have herase : setErase (inf α, t) s.frontier = s.frontier := by
      apply setErase_of_not_mem
      intro hm
      exact hnoent _ hm rfl
    have hmem' : ∀ q, q ∈ (relaxEdge b s e).frontier ↔ q = (prop, t) ∨ q ∈ s.frontier := by
      intro q
      rw [heq]
      simp only
      rw [herase, mem_setInsert]
    have hdd : ∀ x ∈ D, (relaxEdge b s e).dist x = s.dist x := by
      intro x hx
      rw [heq]
      have hxt : x ≠ t := fun h => htD (h ▸ hx)
      exact Function.update_noteq hxt _ _
    have hwalkt : ∃ l, IsWalk adj v l ∧ walkEnd v l = t ∧ walkWeight l = prop := by
      obtain ⟨⟨l, hwl, hend, hwt⟩, _⟩ := hc.dshort b hbD
      refine ⟨l ++ [e], isWalk_append hwl ?_, ?_, ?_⟩
      · rw [hend]
        exact ⟨he, trivial⟩
      · rw [walkEnd_append, hend]
        rfl
      · rw [walkWeight_append, hwt, hprop]
        simp [walkWeight]
    refine ⟨?_, hdd, ?_, ?_, ?_, ?_⟩
    · constructor
      · rw [heq]
        simp only
        rw [herase]
        exact setInsert_nodup hc.fnodup
      · intro q hq
        rcases (hmem' q).mp hq with rfl | hqs
        · rw [heq]
          show prop = Function.update s.dist t prop t
          exact (Function.update_same t prop s.dist).symm
        · rw [heq]
          simp only
          rw [Function.update_noteq (hnoent q hqs)]
          exact hc.fkey q hqs
      · intro q hq
        rw [heq]
        simp only
        rcases (hmem' q).mp hq with rfl | hqs
        · exact Finset.mem_insert_self _ _
        · exact Finset.mem_insert_of_mem (hc.ftouch q hqs)
      · intro q hq
        rcases (hmem' q).mp hq with rfl | hqs
        · exact htD
        · exact hc.fnotdone q hqs
      · intro q hq
        rcases (hmem' q).mp hq with rfl | hqs
        · exact hlt
        · exact hc.fbound q hqs
      · intro q hq
        rcases (hmem' q).mp hq with rfl | hqs
        · exact hwalkt
        · exact hc.fwalk q hqs
      · intro x hx
        rw [heq]
        exact Finset.mem_insert_of_mem (hc.dtouch x hx)
      · intro x hx
        have hs := hc.dshort x hx
        rwa [← hdd x hx] at hs
      · intro x hx
        have hs := hc.dbound x hx
        rwa [← hdd x hx] at hs
      · exact hc.dnodup
      · intro q hq x hx
        rw [hdd x hx]
        rcases (hmem' q).mp hq with rfl | hqs
        · calc s.dist x ≤ s.dist b := hlast x hx
            _ ≤ prop := by rw [hprop]; linarith
        · exact hc.mono q hqs x hx
      · have hm : D.map (relaxEdge b s e).dist = D.map s.dist := List.map_congr_left hdd
        rw [hm]
        exact hc.dsorted
      · intro x hx
        rw [heq] at hx
        simp only at hx
        rcases Finset.mem_insert.mp hx with rfl | hxs
        · exact reach_step hreachb he
        · exact hc.treach x hxs
      · intro x hx hxD hent
        rw [heq] at hx ⊢
        simp only at hx ⊢
        rcases Finset.mem_insert.mp hx with rfl | hxs
        · exfalso
          exact hent (prop, t) ((hmem' _).mpr (Or.inl rfl)) rfl
        · have hxt : x ≠ t := by
            intro h
            exact hent (prop, t) ((hmem' _).mpr (Or.inl rfl)) (by rw [h])
          have hent' : ∀ p ∈ s.frontier, p.2 ≠ x := by
            intro p hp
            exact hent p ((hmem' p).mpr (Or.inr hp))
          rw [Function.update_noteq hxt]
          exact hc.dropped x hxs hxD hent'
    · intro p hp
      exact ⟨p, (hmem' p).mpr (Or.inr hp), rfl, le_refl _⟩
    · rw [heq]
      simp only
      exact fun x hx => Finset.mem_insert_of_mem hx
    · intro _ _
      exact ⟨(prop, t), (hmem' _).mpr (Or.inl rfl), rfl, le_refl _⟩
    · rw [heq]
  · -- fresh touch, candidate at least the sentinel: no insertion
    set t := e.1 with hte
    have htD : t ∉ D := fun h => ht (hc.dtouch t h)
    have hnoent : ∀ p ∈ s.frontier, p.2 ≠ t := by
      intro p hp hpt
      exact ht (hpt ▸ hc.ftouch p hp)
    have hfr : (relaxEdge b s e).frontier = s.frontier := by rw [heq]
    have hdd : ∀ x ∈ D, (relaxEdge b s e).dist x = s.dist x := by
      intro x hx
      rw [heq]
      have hxt : x ≠ t := fun h => htD (h ▸ hx)
      exact Function.update_noteq hxt _ _
    refine ⟨?_, hdd, ?_, ?_, ?_, ?_⟩
    · constructor
      · rw [hfr]
        exact hc.fnodup
      · intro q hq
        rw [hfr] at hq
        rw [heq]
        simp only
        rw [Function.update_noteq (hnoent q hq)]
        exact hc.fkey q hq
      · intro q hq
        rw [hfr] at hq
        rw [heq]
        exact Finset.mem_insert_of_mem (hc.ftouch q hq)
      · intro q hq
        rw [hfr] at hq
        exact hc.fnotdone q hq
      · intro q hq
        rw [hfr] at hq
        exact hc.fbound q hq
      · intro q hq
        rw [hfr] at hq
        exact hc.fwalk q hq
      · intro x hx
        rw [heq]
        exact Finset.mem_insert_of_mem (hc.dtouch x hx)
      · intro x hx
        have hs := hc.dshort x hx
        rwa [← hdd x hx] at hs
      · intro x hx
        have hs := hc.dbound x hx
        rwa [← hdd x hx] at hs
      · exact hc.dnodup
      · intro q hq x hx
        rw [hfr] at hq
        rw [hdd x hx]
        exact hc.mono q hq x hx
      · have hm : D.map (relaxEdge b s e).dist = D.map s.dist := List.map_congr_left hdd
        rw [hm]
        exact hc.dsorted
      · intro x hx
        rw [heq] at hx
        simp only at hx
        rcases Finset.mem_insert.mp hx with rfl | hxs
        · exact reach_step hreachb he
        · exact hc.treach x hxs
      · intro x hx hxD hent
        rw [heq] at hx ⊢
        simp only at hx ⊢
        rcases Finset.mem_insert.mp hx with rfl | hxs
        · show Function.update s.dist t (inf α) t = inf α
          exact Function.update_same t (inf α) s.dist
        · have hxt : x ≠ t := by
            intro h
            rw [h] at hxs
            exact ht hxs
          rw [Function.update_noteq hxt]
          rw [hfr] at hent
          exact hc.dropped x hxs hxD hent
    · intro p hp
      rw [hfr]
      exact ⟨p, hp, rfl, le_refl _⟩
    · rw [heq]
      exact fun x hx => Finset.mem_insert_of_mem hx
    · intro _ hinf
      exact absurd hinf hnlt
    · rw [heq]

/-- The decrease-key obligations plus the shortest-distance facts for extracted
vertices cover every walk that leaves the extracted set while staying below the
sentinel: some frontier entry has key at most the walk's weight. -/
lemma frontier_cover {adj : ℕ → List (ℕ × α)}
    (hpos : ∀ u, ∀ e ∈ adj u, (0 : α) < e.2)
    {v : ℕ} {D : List ℕ} {s : SearchState α}
    (hc : Core adj v D s) (hrel : ∀ b ∈ D, Relaxed D s b (adj b)) (hvD : v ∈ D)
    {u : ℕ} {l : List (ℕ × α)} (hu : u ∉ D)
    (hw : IsWalk adj v l) (hend : walkEnd v l = u) (hbound : walkWeight l < inf α) :
    ∃ p ∈ s.frontier, p.1 ≤ walkWeight l := by
  obtain ⟨b, e, l1, hbD, he, heout, hw1, hend1, hle⟩ :=
    walk_exit hpos D l v hvD hw (hend ▸ hu)
  have h1 : s.dist b ≤ walkWeight l1 := (hc.dshort b hbD).2 l1 hw1 hend1
  have h2 : s.dist b + e.2 < inf α := lt_of_le_of_lt (by linarith) hbound
  obtain ⟨p, hp, _, hple⟩ := hrel b hbD e he heout h2
  exact ⟨p, hp, by linarith⟩

/-- Preservation over the whole inner relaxation loop (`relaxNeighbours`
specialises `es := adj b`). -/
lemma relaxFold_pres {adj : ℕ → List (ℕ × α)}
    (hpos : ∀ u, ∀ e ∈ adj u, (0 : α) < e.2)
    {v : ℕ} {D : List ℕ} {b : ℕ} (hbD : b ∈ D) (es : List (ℕ × α)) :
    (∀ e ∈ es, e ∈ adj b) →
    ∀ {s : SearchState α}, Core adj v D s → (∀ x ∈ D, s.dist x ≤ s.dist b) →
    Core adj v D (es.foldl (relaxEdge b) s) ∧
    (∀ x ∈ D, (es.foldl (relaxEdge b) s).dist x = s.dist x) ∧
    (∀ p ∈ s.frontier, ∃ q ∈ (es.foldl (relaxEdge b) s).frontier, q.2 = p.2 ∧ q.1 ≤ p.1) ∧
    s.touched ⊆ (es.foldl (relaxEdge b) s).touched ∧
    (∀ e ∈ es, e.1 ∉ D → s.dist b + e.2 < inf α →
      ∃ q ∈ (es.foldl (relaxEdge b) s).frontier, q.2 = e.1 ∧ q.1 ≤ s.dist b + e.2) ∧
    (es.foldl (relaxEdge b) s).recs = s.recs := by
  induction es with
  | nil =>
    intro _ s hc hlast
    exact ⟨hc, fun _ _ => rfl, fun p hp => ⟨p, hp, rfl, le_refl _⟩,
      Finset.Subset.refl _, by simp, rfl⟩
  | cons e rest ih =>
    intro hes s hc hlast
    have he : e ∈ adj b := hes e (List.mem_cons_self _ _)
    obtain ⟨hc1, hdd1, hmono1, htch1, hrel1, hrecs1⟩ := relaxEdge_pres hpos hbD hc hlast he
    have hlast1 : ∀ x ∈ D, (relaxEdge b s e).dist x ≤ (relaxEdge b s e).dist b := by
      intro x hx
      rw [hdd1 x hx, hdd1 b hbD]
      exact hlast x hx
    have hes' : ∀ e' ∈ rest, e' ∈ adj b := fun e' h => hes e' (List.mem_cons_of_mem _ h)
    obtain ⟨hc2, hdd2, hmono2, htch2, hrel2, hrecs2⟩ := ih hes' hc1 hlast1
    rw [List.foldl_cons]
    refine ⟨hc2, ?_, ?_, ?_, ?_, ?_⟩
    · intro x hx
      rw [hdd2 x hx, hdd1 x hx]
    · intro p hp
      obtain ⟨q1, hq1, hq1v, hq1le⟩ := hmono1 p hp
      obtain ⟨q2, hq2, hq2v, hq2le⟩ := hmono2 q1 hq1
      exact ⟨q2, hq2, by rw [hq2v, hq1v], le_trans hq2le hq1le⟩
    · exact subset_trans htch1 htch2
    · intro e' he' hnotD hinf
      rcases List.mem_cons.mp he' with heq' | hmem
      · rw [heq'] at hnotD hinf ⊢
        obtain ⟨q1, hq1, hq1v, hq1le⟩ := hrel1 hnotD hinf
        obtain ⟨q2, hq2, hq2v, hq2le⟩ := hmono2 q1 hq1
        exact ⟨q2, hq2, by rw [hq2v, hq1v], le_trans hq2le hq1le⟩
      · have hb1 : (relaxEdge b s e).dist b = s.dist b := hdd1 b hbD
        have hres := hrel2 e' hmem hnotD (by rw [hb1]; exact hinf)
        rw [hb1] at hres
        exact hres
    · rw [hrecs2, hrecs1]

/-- Neither the core invariant nor the decrease-key obligations mention the
record list, so both transfer across any change of it. -/
lemma core_set_recs {adj : ℕ → List (ℕ × α)} {v : ℕ} {D : List ℕ} {s : SearchState α}
    (hc : Core adj v D s) (r : List ℕ) : Core adj v D { s with recs := r } :=
  { fnodup := hc.fnodup, fkey := hc.fkey, ftouch := hc.ftouch, fnotdone := hc.fnotdone,
    fbound := hc.fbound, fwalk := hc.fwalk, dtouch := hc.dtouch, dshort := hc.dshort,
    dbound := hc.dbound, dnodup := hc.dnodup, mono := hc.mono, dsorted := hc.dsorted,
    treach := hc.treach, dropped := hc.dropped }

lemma relaxedAll_set_recs {adj : ℕ → List (ℕ × α)} {D : List ℕ} {s : SearchState α}
    (h : ∀ b ∈ D, Relaxed D s b (adj b)) (r : List ℕ) :
    ∀ b ∈ D, Relaxed D { s with recs := r } b (adj b) := h

/-- One full iteration of the expansion loop starting from a state satisfying the
invariant: the extracted vertex joins the extracted list with its key as its
final (shortest-path) distance; the invariant is preserved. -/
lemma extract_pres {adj : ℕ → List (ℕ × α)}
    (hpos : ∀ u, ∀ e ∈ adj u, (0 : α) < e.2)
    {v : ℕ} {D : List ℕ} {s : SearchState α} (hvD : v ∈ D) (hi : Inv adj v D s)
    {m : α × ℕ} (hm : extractMin s.frontier = some m) :
    Inv adj v (D ++ [m.2])
      (relaxNeighbours adj m.2 { s with frontier := setErase m s.frontier }) ∧
    (relaxNeighbours adj m.2 { s with frontier := setErase m s.frontier }).dist m.2 = m.1 ∧
    (relaxNeighbours adj m.2 { s with frontier := setErase m s.frontier }).recs = s.recs ∧
    s.touched ⊆ (relaxNeighbours adj m.2 { s with frontier := setErase m s.frontier }).touched := by
  unfold relaxNeighbours
  have hc := hi.core
  have hmem : m ∈ s.frontier := extractMin_mem hm
  have hkey : m.1 = s.dist m.2 := hc.fkey m hmem
  have hnotD : m.2 ∉ D := hc.fnotdone m hmem
  have hbound : m.1 < inf α := hc.fbound m hmem
  have hshort : ShortestDist adj v m.2 m.1 := by
    constructor
    · exact hc.fwalk m hmem
    · intro l hw hend
      by_cases hwb : walkWeight l < inf α
      · obtain ⟨p, hp, hple⟩ := frontier_cover hpos hc hi.relaxed hvD hnotD hw hend hwb
        exact le_trans (extractMin_le hm p hp) hple
      · exact le_trans (le_of_lt hbound) (not_lt.mp hwb)
  -- the state after `st.erase(iter)`
  set s1 : SearchState α := { s with frontier := setErase m s.frontier } with hs1
  have hmem1 : ∀ q, q ∈ s1.frontier ↔ q ∈ s.frontier ∧ q ≠ m := fun q =>
    mem_setErase hc.fnodup
  have hvx : ∀ q ∈ s.frontier, q.2 = m.2 → q = m := by
    intro q hq hqv
    have hk := hc.fkey q hq
    rw [hqv, ← hkey] at hk
    calc q = (q.1, q.2) := rfl
      _ = m := by rw [hqv, hk]
  have hD' : (D ++ [m.2]).Nodup := by
    rw [List.nodup_append]
    exact ⟨hc.dnodup, List.nodup_singleton _, by
      intro x hx hx2
      rw [List.mem_singleton] at hx2
      exact hnotD (hx2 ▸ hx)⟩
  have hnotDD : ∀ x, x ∈ D ++ [m.2] ↔ x ∈ D ∨ x = m.2 := by
    intro x
    rw [List.mem_append, List.mem_singleton]
  have hc1 : Core adj v (D ++ [m.2]) s1 := by
    constructor
    · exact setErase_nodup hc.fnodup
    · intro q hq
      exact hc.fkey q ((hmem1 q).mp hq).1
    · intro q hq
      exact hc.ftouch q ((hmem1 q).mp hq).1
    · intro q hq
      obtain ⟨hqs, hqm⟩ := (hmem1 q).mp hq
      rw [hnotDD]
      push_neg
      exact ⟨hc.fnotdone q hqs, fun h => hqm (hvx q hqs h)⟩
    · intro q hq
      exact hc.fbound q ((hmem1 q).mp hq).1
    · intro q hq
      exact hc.fwalk q ((hmem1 q).mp hq).1
    · intro x hx
      rcases (hnotDD x).mp hx with h | h
      · exact hc.dtouch x h
      · rw [h]
        exact hc.ftouch m hmem
    · intro x hx
      rcases (hnotDD x).mp hx with h | h
      · exact hc.dshort x h
      · rw [h]
        show ShortestDist adj v m.2 (s.dist m.2)
        rw [← hkey]
        exact hshort
    · intro x hx
      rcases (hnotDD x).mp hx with h | h
      · exact hc.dbound x h
      · rw [h]
        show s.dist m.2 < inf α
        rw [← hkey]
        exact hbound
    · exact hD'
    · intro q hq x hx
      obtain ⟨hqs, _⟩ := (hmem1 q).mp hq
      rcases (hnotDD x).mp hx with h | h
      · exact hc.mono q hqs x h
      · rw [h]
        show s.dist m.2 ≤ q.1
        rw [← hkey]
        exact extractMin_le hm q hqs
    · rw [List.map_append]
      refine List.pairwise_append.mpr ⟨hc.dsorted, List.pairwise_singleton _ _, ?_⟩
      intro x hx y hy
      rw [List.mem_map] at hx
      obtain ⟨x', hx', rfl⟩ := hx
      rw [List.map_singleton, List.mem_singleton] at hy
      rw [hy]
      show s.dist x' ≤ s.dist m.2
      rw [← hkey]
      exact hc.mono m hmem x' hx'
    · exact hc.treach
    · intro x hx hxD hent
      have hxm : x ≠ m.2 := fun h => hxD ((hnotDD x).mpr (Or.inr h))
      have hxD0 : x ∉ D := fun h => hxD ((hnotDD x).mpr (Or.inl h))
      refine hc.dropped x hx hxD0 ?_
      intro p hp hpx
      have hpm : p ≠ m := by
        intro h
        rw [h] at hpx
        exact hxm hpx.symm
      exact hent p ((hmem1 p).mpr ⟨hp, hpm⟩) hpx
  have hlast1 : ∀ x ∈ D ++ [m.2], s1.dist x ≤ s1.dist m.2 := by
    intro x hx
    rcases (hnotDD x).mp hx with h | h
    · show s.dist x ≤ s.dist m.2
      rw [← hkey]
      exact hc.mono m hmem x h
    · rw [h]
  have hbD' : m.2 ∈ D ++ [m.2] := (hnotDD m.2).mpr (Or.inr rfl)
  obtain ⟨hc2, hdd2, hmono2, htch2, hrel2, hrecs2⟩ :=
    relaxFold_pres hpos hbD' (adj m.2) (fun _ h => h) hc1 hlast1
  have hdm : (relaxNeighbours adj m.2 s1).dist m.2 = m.1 := by
    show (List.foldl (relaxEdge m.2) s1 (adj m.2)).dist m.2 = m.1
    rw [hdd2 m.2 hbD']
    show s.dist m.2 = m.1
    exact hkey.symm
  have hrelAll : ∀ b ∈ D ++ [m.2],
      Relaxed (D ++ [m.2]) (List.foldl (relaxEdge m.2) s1 (adj m.2)) b (adj b) := by
    intro b hb
    rcases (hnotDD b).mp hb with hbold | hbm
    · -- previously extracted vertex: transfer its old obligations
      intro e he heD hinf
      have hbd : (List.foldl (relaxEdge m.2) s1 (adj m.2)).dist b = s.dist b := hdd2 b hb
      rw [hbd] at hinf ⊢
      have heD0 : e.1 ∉ D := fun h => heD ((hnotDD e.1).mpr (Or.inl h))
      have heDm : e.1 ≠ m.2 := fun h => heD ((hnotDD e.1).mpr (Or.inr h))
      obtain ⟨p, hp, hpv, hple⟩ := hi.relaxed b hbold e he heD0 hinf
      have hpm : p ≠ m := by
        intro h
        rw [h] at hpv
        exact heDm hpv.symm
      obtain ⟨q, hq, hqv, hqle⟩ := hmono2 p ((hmem1 p).mpr ⟨hp, hpm⟩)
      exact ⟨q, hq, by rw [hqv, hpv], le_trans hqle hple⟩
    · -- the freshly extracted vertex: obligations from the relaxation loop
      rw [hbm]
      intro e he heD hinf
      have hbd : (List.foldl (relaxEdge m.2) s1 (adj m.2)).dist m.2 = s1.dist m.2 :=
        hdd2 m.2 hbD'
      rw [hbd] at hinf ⊢
      exact hrel2 e he heD hinf
  exact ⟨⟨hc2, hrelAll⟩, hdm, hrecs2, htch2⟩

lemma searchLoop_succ (adj : ℕ → List (ℕ × α)) (fuel it : ℕ) (s : SearchState α) :
    searchLoop adj (fuel + 1) it s =
      match extractMin s.frontier with
      | none => (s, it)
      | some m =>
        searchLoop adj fuel (it + 1)
          (if 0 < it
           then { relaxNeighbours adj m.2 { s with frontier := setErase m s.frontier } with
                  recs := (relaxNeighbours adj m.2
                    { s with frontier := setErase m s.frontier }).recs ++ [m.2] }
           else relaxNeighbours adj m.2 { s with frontier := setErase m s.frontier }) := rfl

lemma searchLoop_none {adj : ℕ → List (ℕ × α)} {s : SearchState α} (fuel it : ℕ)
    (hm : extractMin s.frontier = none) : searchLoop adj (fuel + 1) it s = (s, it) := by
  rw [searchLoop_succ, hm]

/-- The main loop preserves the invariant; every iteration after the first
records the extracted vertex, `it` counts extractions, and the loop stops early
only because the frontier is empty. -/
lemma searchLoop_pres {adj : ℕ → List (ℕ × α)}
    (hpos : ∀ u, ∀ e ∈ adj u, (0 : α) < e.2) {v : ℕ} :
    ∀ (fuel it : ℕ) (s : SearchState α), 0 < it → Inv adj v (v :: s.recs) s →
      it = s.recs.length + 1 →
      ∃ s' it', searchLoop adj fuel it s = (s', it') ∧
        Inv adj v (v :: s'.recs) s' ∧
        it' = s'.recs.length + 1 ∧
        it ≤ it' ∧ it' ≤ it + fuel ∧
        (it' < it + fuel → s'.frontier = []) ∧
        ∃ ext, s'.recs = s.recs ++ ext := by
  intro fuel
  induction fuel with
  | zero =>
    intro it s hit hi hlen
    exact ⟨s, it, rfl, hi, hlen, le_refl _, le_refl _, fun h => absurd h (by omega),
      [], by simp⟩
  | succ fuel ih =>
    intro it s hit hi hlen
    cases hm : extractMin s.frontier with
    | none =>
      refine ⟨s, it, ?_, hi, hlen, le_refl _, by omega, ?_, [], by simp⟩
      · rw [searchLoop_succ, hm]
      · intro _
        exact extractMin_eq_none.mp hm
    | some m =>
      have hvD : v ∈ v :: s.recs := List.mem_cons_self _ _
      obtain ⟨hi2, hdm, hrecs2, htch2⟩ := extract_pres hpos hvD hi hm
      set s2 := relaxNeighbours adj m.2 { s with frontier := setErase m s.frontier } with hs2
      set s3 : SearchState α := { s2 with recs := s2.recs ++ [m.2] } with hs3
      have hrecs3 : s3.recs = s.recs ++ [m.2] := by
        rw [hs3]
        show s2.recs ++ [m.2] = s.recs ++ [m.2]
        rw [hrecs2]
      have hi3 : Inv adj v (v :: s3.recs) s3 := by
        have hD : v :: s3.recs = (v :: s.recs) ++ [m.2] := by
          rw [hrecs3, List.cons_append]
        rw [hD]
        exact ⟨core_set_recs hi2.core _, relaxedAll_set_recs hi2.relaxed _⟩
      have hlen3 : it + 1 = s3.recs.length + 1 := by
        rw [hrecs3, List.length_append, List.length_singleton]
        omega
      obtain ⟨s', it', heq, hi', hlen', hle1, hle2, hempty, ext, hext⟩ :=
        ih (it + 1) s3 (Nat.succ_pos _) hi3 hlen3
      refine ⟨s', it', ?_, hi', hlen', by omega, by omega, ?_, [m.2] ++ ext, ?_⟩
      · rw [searchLoop_succ, hm]
        simp only [if_pos hit]
        exact heq
      · intro hlt
        exact hempty (by omega)
      · rw [hext, hrecs3, List.append_assoc]

/-- After the full `find_nearest_neighbours` run: the invariant holds for the
extraction list `v :: recs`, the returned `it` counts extractions (at least the
source itself), at most `K + 1` extractions happen, and a run of fewer ends with
an empty frontier. -/
lemma find_pres {adj : ℕ → List (ℕ × α)}
    (hpos : ∀ u, ∀ e ∈ adj u, (0 : α) < e.2) (K v : ℕ) (dist0 : ℕ → α) :
    ∃ s' it', find_nearest_neighbours adj K v dist0 = (s', it') ∧
      Inv adj v (v :: s'.recs) s' ∧
      it' = s'.recs.length + 1 ∧
      1 ≤ it' ∧ it' ≤ K + 1 ∧
      (it' < K + 1 → s'.frontier = []) := by
  have hm : extractMin (initState dist0 v).frontier = some ((0 : α), v) := rfl
  set s1 : SearchState α :=
    { initState dist0 v with
      frontier := setErase ((0 : α), v) (initState dist0 v).frontier } with hs1
  have hfr1 : s1.frontier = [] := by
    rw [hs1]
    show setErase ((0 : α), v) [((0 : α), v)] = []
    unfold setErase
    exact List.erase_cons_head _ _
  have hd1 : s1.dist v = 0 := by
    show Function.update dist0 v 0 v = 0
    exact Function.update_same v 0 dist0
  have hc1 : Core adj v [v] s1 := by
    constructor
    · rw [hfr1]; exact List.nodup_nil
    · intro p hp; rw [hfr1] at hp; cases hp
    · intro p hp; rw [hfr1] at hp; cases hp
    · intro p hp; rw [hfr1] at hp; cases hp
    · intro p hp; rw [hfr1] at hp; cases hp
    · intro p hp; rw [hfr1] at hp; cases hp
    · intro x hx
      rw [List.mem_singleton] at hx
      rw [hx]
      show v ∈ ({v} : Finset ℕ)
      exact Finset.mem_singleton_self v
    · intro x hx
      rw [List.mem_singleton] at hx
      rw [hx, hd1]
      exact ⟨⟨[], trivial, rfl, rfl⟩, fun l hw _ => walkWeight_nonneg hpos hw⟩
    · intro x hx
      rw [List.mem_singleton] at hx
      rw [hx, hd1]
      exact inf_pos
    · exact List.nodup_singleton v
    · intro p hp; rw [hfr1] at hp; cases hp
    · rw [List.map_singleton]
      exact List.sorted_singleton _
    · intro t ht
      have : t = v := Finset.mem_singleton.mp ht
      rw [this]
      exact reach_refl adj v
    · intro t ht htD _
      exfalso
      exact htD (List.mem_singleton.mpr (Finset.mem_singleton.mp ht))
  have hlast1 : ∀ x ∈ [v], s1.dist x ≤ s1.dist v := by
    intro x hx
    rw [List.mem_singleton.mp hx]
  have hvv : v ∈ [v] := List.mem_singleton_self v
  obtain ⟨hc2, hdd2, hmono2, htch2, hrel2, hrecs2⟩ :=
    relaxFold_pres hpos hvv (adj v) (fun _ h => h) hc1 hlast1
  have hrecs2' : (List.foldl (relaxEdge v) s1 (adj v)).recs = [] := by
    rw [hrecs2]
    rfl
  have hi2 : Inv adj v (v :: (List.foldl (relaxEdge v) s1 (adj v)).recs)
      (List.foldl (relaxEdge v) s1 (adj v)) := by
    rw [hrecs2']
    refine ⟨hc2, ?_⟩
    intro b hb
    rw [List.mem_singleton.mp hb]
    intro e he heD hinf
    have hvd : (List.foldl (relaxEdge v) s1 (adj v)).dist v = s1.dist v := hdd2 v hvv
    rw [hvd] at hinf ⊢
    exact hrel2 e he heD hinf
  obtain ⟨s', it', heq, hi', hlen', hle1, hle2, hempty, ext, hext⟩ :=
    searchLoop_pres hpos K 1 (List.foldl (relaxEdge v) s1 (adj v)) Nat.one_pos hi2
      (by rw [hrecs2']; rfl)
  refine ⟨s', it', ?_, hi', hlen', by omega, by omega, fun h => hempty (by omega)⟩
  show searchLoop adj (K + 1) 0 (initState dist0 v) = (s', it')
  rw [searchLoop_succ, hm]
  simp only [Nat.lt_irrefl, if_neg (lt_irrefl 0)]
  exact heq

/-! ## The padding scan and the padding loop -/

/-- `scanUntouched` returns the least untouched index at or after `start`. -/
lemma scanUntouched_spec (touched : Finset ℕ) : ∀ start,
    scanUntouched touched start ∉ touched ∧ start ≤ scanUntouched touched start ∧
    ∀ j, start ≤ j → j < scanUntouched touched start → j ∈ touched := by
  refine scanUntouched.induct touched
    (fun st => scanUntouched touched st ∉ touched ∧ st ≤ scanUntouched touched st ∧
      ∀ j, st ≤ j → j < scanUntouched touched st → j ∈ touched) ?_ ?_
  · intro st hmem ih
    rw [scanUntouched, if_pos hmem]
    refine ⟨ih.1, by omega, ?_⟩
    intro j hj1 hj2
    by_cases hje : j = st
    · rw [hje]
      exact hmem
    · exact ih.2.2 j (by omega) hj2
  · intro st hmem
    rw [scanUntouched, if_neg hmem]
    exact ⟨hmem, le_refl _, fun j h1 h2 => absurd h1 (by omega)⟩

/-- The padding loop emits exactly `n` placeholder indices: the `n` least
untouched indices at or after `cur`, in ascending order, each assigned `inf`;
every other index keeps its distance. -/
lemma padLoop_spec (touched : Finset ℕ) :
    ∀ (n cur : ℕ) (dist : ℕ → α),
      (padLoop touched n cur dist).1.length = n ∧
      (∀ i ∈ (padLoop touched n cur dist).1, i ∉ touched ∧ cur ≤ i) ∧
      (padLoop touched n cur dist).1.Sorted (· < ·) ∧
      (∀ i ∈ (padLoop touched n cur dist).1, ∀ j, cur ≤ j → j < i → j ∉ touched →
        j ∈ (padLoop touched n cur dist).1) ∧
      (∀ i ∈ (padLoop touched n cur dist).1, (padLoop touched n cur dist).2 i = inf α) ∧
      (∀ x, x ∉ (padLoop touched n cur dist).1 → (padLoop touched n cur dist).2 x = dist x) := by
  intro n
  induction n with
  | zero =>
    intro cur dist
    exact ⟨rfl, by simp [padLoop], by simp [padLoop], by simp [padLoop], by simp [padLoop],
      fun x _ => rfl⟩
  | succ n ih =>
    intro cur dist
    obtain ⟨hsc1, hsc2, hsc3⟩ := scanUntouched_spec touched cur
    set i0 := scanUntouched touched cur with hi0
    obtain ⟨ihlen, ihmem, ihsort, ihcomp, ihinf, ihkeep⟩ :=
      ih (i0 + 1) (Function.update dist i0 (inf α))
    have hshape : padLoop touched (n + 1) cur dist =
        (i0 :: (padLoop touched n (i0 + 1) (Function.update dist i0 (inf α))).1,
         (padLoop touched n (i0 + 1) (Function.update dist i0 (inf α))).2) := rfl
    rw [hshape]
    have hi0rest : i0 ∉ (padLoop touched n (i0 + 1) (Function.update dist i0 (inf α))).1 := by
      intro hmem
      have := (ihmem i0 hmem).2
      omega
    refine ⟨?_, ?_, ?_, ?_, ?_, ?_⟩
    · simp only [List.length_cons, ihlen]
    · intro i hi
      rcases List.mem_cons.mp hi with rfl | hi
      · exact ⟨hsc1, hsc2⟩
      · obtain ⟨h1, h2⟩ := ihmem i hi
        exact ⟨h1, by omega⟩
    · rw [List.sorted_cons]
      refine ⟨?_, ihsort⟩
      intro j hj
      have := (ihmem j hj).2
      omega
    · intro i hi j hj1 hj2 hj3
      rcases List.mem_cons.mp hi with rfl | hi
      · exact absurd (hsc3 j hj1 hj2) hj3
      · rcases Nat.lt_trichotomy j i0 with hlt | heq | hgt
        · exact absurd (hsc3 j hj1 hlt) hj3
        · rw [heq]
          exact List.mem_cons_self _ _
        · exact List.mem_cons_of_mem _ (ihcomp i hi j (by omega) hj2 hj3)
    · intro i hi
      rcases List.mem_cons.mp hi with rfl | hi
      · rw [ihkeep i0 hi0rest]
        exact Function.update_same _ _ _
      · exact ihinf i hi
    · intro x hx
      have hx1 : x ≠ i0 := fun h => hx (h ▸ List.mem_cons_self _ _)
      have hx2 : x ∉ (padLoop touched n (i0 + 1) (Function.update dist i0 (inf α))).1 :=
        fun h => hx (List.mem_cons_of_mem _ h)
      rw [ihkeep x hx2]
      exact Function.update_noteq hx1 _ _

/-! ## Structural facts about the search (no hypotheses on the graph) -/

lemma relaxEdge_recs (b : ℕ) (s : SearchState α) (e : ℕ × α) :
    (relaxEdge b s e).recs = s.recs := by
  simp only [relaxEdge]
  split_ifs <;> rfl

lemma relaxEdge_touched_mono (b : ℕ) (s : SearchState α) (e : ℕ × α) :
    s.touched ⊆ (relaxEdge b s e).touched := by
  simp only [relaxEdge]
  split_ifs
  · exact Finset.Subset.refl _
  · exact Finset.Subset.refl _
  · exact Finset.subset_insert _ _
  · exact Finset.subset_insert _ _

lemma relaxEdge_target_touched (b : ℕ) (s : SearchState α) (e : ℕ × α) :
    e.1 ∈ (relaxEdge b s e).touched := by
  simp only [relaxEdge]
  split_ifs with h1 h2 h3
  · assumption
  · assumption
  · exact Finset.mem_insert_self _ _
  · exact Finset.mem_insert_self _ _

lemma relaxEdge_frontier_sub (b : ℕ) (s : SearchState α) (e : ℕ × α) :
    ∀ p ∈ (relaxEdge b s e).frontier, p ∈ s.frontier ∨ p.2 = e.1 := by
  simp only [relaxEdge]
  split_ifs <;> intro p hp
  · simp only at hp
    rcases mem_setInsert.mp hp with rfl | hp
    · exact Or.inr rfl
    · exact Or.inl (setErase_subset hp)
  · exact Or.inl hp
  · simp only at hp
    rcases mem_setInsert.mp hp with rfl | hp
    · exact Or.inr rfl
    · exact Or.inl (setErase_subset hp)
  · exact Or.inl hp

/-- The structural state facts preserved by the whole relaxation loop. -/
lemma relaxFold_struct (b : ℕ) (es : List (ℕ × α)) :
    ∀ s : SearchState α,
      (es.foldl (relaxEdge b) s).recs = s.recs ∧
      s.touched ⊆ (es.foldl (relaxEdge b) s).touched ∧
      (∀ p ∈ (es.foldl (relaxEdge b) s).frontier,
        p ∈ s.frontier ∨ p.2 ∈ (es.foldl (relaxEdge b) s).touched) := by
  induction es with
  | nil =>
    intro s
    exact ⟨rfl, Finset.Subset.refl _, fun p hp => Or.inl hp⟩
  | cons e rest ihs =>
    intro s
    obtain ⟨ih1, ih2, ih3⟩ := ihs (relaxEdge b s e)
    rw [List.foldl_cons]
    refine ⟨by rw [ih1, relaxEdge_recs], subset_trans (relaxEdge_touched_mono b s e) ih2, ?_⟩
    intro p hp
    rcases ih3 p hp with hp1 | hp1
    · rcases relaxEdge_frontier_sub b s e p hp1 with hp2 | hp2
      · exact Or.inl hp2
      · refine Or.inr ?_
        rw [hp2]
        exact ih2 (relaxEdge_target_touched b s e)
    · exact Or.inr hp1

/-- The structural loop facts: `it` increases by one per extraction, every
extraction after the first appends one record, records and frontier vertices
stay touched, and the touched set only grows. -/
lemma searchLoop_struct (adj : ℕ → List (ℕ × α)) :
    ∀ (fuel it : ℕ) (s : SearchState α),
      (∀ p ∈ s.frontier, p.2 ∈ s.touched) → (∀ r ∈ s.recs, r ∈ s.touched) →
      it ≤ (searchLoop adj fuel it s).2 ∧
      (searchLoop adj fuel it s).2 ≤ it + fuel ∧
      (0 < it → (searchLoop adj fuel it s).1.recs.length + it =
        s.recs.length + (searchLoop adj fuel it s).2) ∧
      (it = 0 → ((searchLoop adj fuel it s).2 = 0 ∧ (searchLoop adj fuel it s).1 = s) ∨
        (1 ≤ (searchLoop adj fuel it s).2 ∧
          (searchLoop adj fuel it s).1.recs.length + 1 =
            s.recs.length + (searchLoop adj fuel it s).2)) ∧
      (∀ p ∈ (searchLoop adj fuel it s).1.frontier, p.2 ∈ (searchLoop adj fuel it s).1.touched) ∧
      (∀ r ∈ (searchLoop adj fuel it s).1.recs, r ∈ (searchLoop adj fuel it s).1.touched) ∧
      s.touched ⊆ (searchLoop adj fuel it s).1.touched := by
  intro fuel
  induction fuel with
  | zero =>
    intro it s hf hr
    exact ⟨le_refl _, le_refl _, fun _ => rfl, fun h => Or.inl ⟨h, rfl⟩, hf, hr,
      Finset.Subset.refl _⟩
  | succ fuel ih =>
    intro it s hf hr
    cases hm : extractMin s.frontier with
    | none =>
      rw [searchLoop_none fuel it hm]
      exact ⟨le_refl _, by omega, fun _ => rfl, fun h => Or.inl ⟨h, rfl⟩, hf, hr,
        Finset.Subset.refl _⟩
    | some m =>
      have hms : m ∈ s.frontier := extractMin_mem hm
      have hmt : m.2 ∈ s.touched := hf m hms
      set s1 : SearchState α := { s with frontier := setErase m s.frontier } with hs1
      obtain ⟨hst1, hst2, hst3⟩ := relaxFold_struct m.2 (adj m.2) s1
      set s2 := (adj m.2).foldl (relaxEdge m.2) s1 with hs2
      have hf2 : ∀ p ∈ s2.frontier, p.2 ∈ s2.touched := by
        intro p hp
        rcases hst3 p hp with hp1 | hp1
        · exact hst2 (hf p (setErase_subset hp1))
        · exact hp1
      have hr2 : ∀ r ∈ s2.recs, r ∈ s2.touched := by
        rw [hst1]
        intro r hrr
        exact hst2 (hr r hrr)
      have hrecs2 : s2.recs = s.recs := hst1
      by_cases hit : 0 < it
      · set s3 : SearchState α := { s2 with recs := s2.recs ++ [m.2] } with hs3
        have hr3 : ∀ r ∈ s3.recs, r ∈ s3.touched := by
          intro r hrr
          rcases List.mem_append.mp hrr with h | h
          · exact hr2 r h
          · rw [List.mem_singleton.mp h]
            exact hst2 hmt
        have hf3 : ∀ p ∈ s3.frontier, p.2 ∈ s3.touched := hf2
        have hloop : searchLoop adj (fuel + 1) it s = searchLoop adj fuel (it + 1) s3 := by
          rw [searchLoop_succ, hm]
          simp only [if_pos hit]
          rfl
        obtain ⟨g1, g2, g3, _, g5, g6, g7⟩ := ih (it + 1) s3 hf3 hr3
        rw [hloop]
        have hlen3 : s3.recs.length = s.recs.length + 1 := by
          show (s2.recs ++ [m.2]).length = s.recs.length + 1
          rw [List.length_append, hrecs2, List.length_singleton]
        refine ⟨by omega, by omega, ?_, by omega, g5, g6, ?_⟩
        · intro _
          have := g3 (by omega)
          omega
        · exact subset_trans hst2 g7
      · have hit0 : it = 0 := by omega
        have hloop : searchLoop adj (fuel + 1) it s = searchLoop adj fuel (it + 1) s2 := by
          rw [searchLoop_succ, hm]
          simp only [if_neg hit]
          rfl
        obtain ⟨g1, g2, g3, _, g5, g6, g7⟩ := ih (it + 1) s2 hf2 hr2
        rw [hloop]
        refine ⟨by omega, by omega, fun h => absurd h (by omega), ?_, g5, g6,
          subset_trans hst2 g7⟩
        intro _
        refine Or.inr ⟨by omega, ?_⟩
        have := g3 (by omega)
        rw [hrecs2] at this
        omega

/-- Unfolding the first loop iteration of a search: the source itself is
extracted first and not recorded. -/
lemma find_unfold (adj : ℕ → List (ℕ × α)) (K v : ℕ) (dist0 : ℕ → α) :
    find_nearest_neighbours adj K v dist0 =
      searchLoop adj K 1 (relaxNeighbours adj v
        { initState dist0 v with
          frontier := setErase ((0 : α), v) (initState dist0 v).frontier }) := rfl

/-- `it` returned by a full search counts the extractions: one more than the
number of records; there is at least one extraction and at most `K + 1`; and
all recorded vertices are touched. -/
lemma find_it_eq (adj : ℕ → List (ℕ × α)) (K v : ℕ) (dist0 : ℕ → α) :
    (find_nearest_neighbours adj K v dist0).2 =
      (find_nearest_neighbours adj K v dist0).1.recs.length + 1 ∧
    1 ≤ (find_nearest_neighbours adj K v dist0).2 ∧
    (find_nearest_neighbours adj K v dist0).2 ≤ K + 1 ∧
    (∀ r ∈ (find_nearest_neighbours adj K v dist0).1.recs,
      r ∈ (find_nearest_neighbours adj K v dist0).1.touched) ∧
    v ∈ (find_nearest_neighbours adj K v dist0).1.touched := by
  rw [find_unfold]
  set s1 : SearchState α :=
    { initState dist0 v with
      frontier := setErase ((0 : α), v) (initState dist0 v).frontier } with hs1
  obtain ⟨hst1, hst2, hst3⟩ := relaxFold_struct v (adj v) s1
  have hrecs1 : s1.recs = [] := rfl
  have hf2 : ∀ p ∈ (relaxNeighbours adj v s1).frontier,
      p.2 ∈ (relaxNeighbours adj v s1).touched := by
    intro p hp
    rcases hst3 p hp with hp1 | hp1
    · have hp2 := setErase_subset hp1
      rcases List.mem_singleton.mp hp2 with rfl
      exact hst2 (Finset.mem_singleton_self v)
    · exact hp1
  have hr2 : ∀ r ∈ (relaxNeighbours adj v s1).recs,
      r ∈ (relaxNeighbours adj v s1).touched := by
    intro r hrr
    have : (relaxNeighbours adj v s1).recs = [] := by
      show (List.foldl (relaxEdge v) s1 (adj v)).recs = []
      rw [hst1, hrecs1]
    rw [this] at hrr
    cases hrr
  obtain ⟨g1, g2, g3, _, _, g6, g7⟩ :=
    searchLoop_struct adj K 1 (relaxNeighbours adj v s1) hf2 hr2
  have hrecs2 : (relaxNeighbours adj v s1).recs = [] := by
    show (List.foldl (relaxEdge v) s1 (adj v)).recs = []
    rw [hst1, hrecs1]
  have hlen := g3 Nat.one_pos
  rw [hrecs2] at hlen
  simp only [List.length_nil] at hlen
  refine ⟨by omega, by omega, by omega, g6, ?_⟩
  apply g7
  apply hst2
  exact Finset.mem_singleton_self v

/-- Every search touches its own source (writes its cell of the scratch arrays). -/
lemma find_source_touched {adj : ℕ → List (ℕ × α)} (K v : ℕ) (dist0 : ℕ → α) :
    v ∈ (find_nearest_neighbours adj K v dist0).1.touched :=
  (find_it_eq adj K v dist0).2.2.2.2

/-! ## Reachability counting -/

lemma walkEnd_mem {adj : ℕ → List (ℕ × α)} :
    ∀ (l : List (ℕ × α)) (v : ℕ), IsWalk adj v l →
      walkEnd v l = v ∨ ∃ u e, e ∈ adj u ∧ walkEnd v l = e.1 := by
  intro l
  induction l with
  | nil =>
    intro v _
    exact Or.inl rfl
  | cons e rest ih =>
    intro v hw
    rcases ih e.1 hw.2 with h | ⟨u, e', he', hend⟩
    · exact Or.inr ⟨v, e, hw.1, h⟩
    · exact Or.inr ⟨u, e', he', hend⟩

lemma reach_lt {adj : ℕ → List (ℕ × α)} {n v u : ℕ}
    (hrange : ∀ w, ∀ e ∈ adj w, e.1 < n) (h : Reach adj v u) : u = v ∨ u < n := by
  obtain ⟨l, hw, hend⟩ := h
  rcases walkEnd_mem l v hw with h1 | ⟨u', e, he, h1⟩
  · left
    rw [← hend, h1]
  · right
    rw [← hend, h1]
    exact hrange u' e he

lemma reach_set_finite {adj : ℕ → List (ℕ × α)} {n v : ℕ}
    (hrange : ∀ w, ∀ e ∈ adj w, e.1 < n) : {u | Reach adj v u}.Finite := by
  apply Set.Finite.subset ((Set.finite_Iio n).insert v)
  intro u hu
  rcases reach_lt hrange hu with h | h
  · exact Set.mem_insert_iff.mpr (Or.inl h)
  · exact Set.mem_insert_iff.mpr (Or.inr h)

lemma reachIn_set_finite {adj : ℕ → List (ℕ × α)} {n v : ℕ}
    (hrange : ∀ w, ∀ e ∈ adj w, e.1 < n) : {u | u ≠ v ∧ ReachIn adj v u}.Finite := by
  apply Set.Finite.subset (reach_set_finite (v := v) hrange)
  rintro u ⟨_, l, hw, hend, _⟩
  exact ⟨l, hw, hend⟩

lemma length_eq_ncard {l : List ℕ} {S : Set ℕ} (hnd : l.Nodup)
    (h1 : ∀ x ∈ l, x ∈ S) (h2 : ∀ x ∈ S, x ∈ l) : l.length = S.ncard := by
  have hS : S = ↑l.toFinset := by
    ext x
    rw [List.coe_toFinset, Set.mem_setOf_eq]
    exact ⟨fun hx => h2 x hx, fun hx => h1 x hx⟩
  rw [hS, Set.ncard_coe_Finset, List.toFinset_card_of_nodup hnd]

lemma length_le_ncard {l : List ℕ} {S : Set ℕ} (hnd : l.Nodup) (hS : S.Finite)
    (h1 : ∀ x ∈ l, x ∈ S) : l.length ≤ S.ncard := by
  have hsub : ↑l.toFinset ⊆ S := by
    intro x hx
    rw [List.coe_toFinset, Set.mem_setOf_eq] at hx
    exact h1 x hx
  have h := Set.ncard_le_ncard hsub hS
  rwa [Set.ncard_coe_Finset, List.toFinset_card_of_nodup hnd] at h

/-! ## Result-row plumbing -/

lemma resultRow_eq {adj : ℕ → List (ℕ × α)} {K v : ℕ} {dist0 : ℕ → α} {s : SearchState α}
    {it : ℕ} (h : find_nearest_neighbours adj K v dist0 = (s, it)) :
    resultRow adj K v dist0 =
      (s.recs ++ (padLoop s.touched (K + 1 - it) 0 s.dist).1).map
        (fun i => (i, (padLoop s.touched (K + 1 - it) 0 s.dist).2 i)) := by
  unfold resultRow
  rw [h]

/-- Every result row has exactly `K` entries, with no hypotheses on the graph. -/
lemma resultRow_length (adj : ℕ → List (ℕ × α)) (K v : ℕ) (dist0 : ℕ → α) :
    (resultRow adj K v dist0).length = K := by
  obtain ⟨h1, h2, h3, _, _⟩ := find_it_eq adj K v dist0
  rw [resultRow_eq (Prod.ext rfl rfl : find_nearest_neighbours adj K v dist0 =
    ((find_nearest_neighbours adj K v dist0).1, (find_nearest_neighbours adj K v dist0).2))]
  rw [List.length_map, List.length_append]
  rw [(padLoop_spec _ _ _ _).1]
  omega

/-! ## Claim theorems for the search -/

/-- C9: within one search over a graph with strictly positive edge distances, no
vertex is extracted from the frontier more than once: the full extraction
sequence (the source followed by the recorded real records, in order) has no
duplicates, so the real records are pairwise distinct and none equals the
source. -/
theorem C9_no_vertex_extracted_twice {α : Type} [LinearOrderedField α]
    (adj : ℕ → List (ℕ × α)) (K v : ℕ) (dist0 : ℕ → α)
    (hpos : ∀ u, ∀ e ∈ adj u, (0 : α) < e.2) :
    (v :: (find_nearest_neighbours adj K v dist0).1.recs).Nodup := by
  obtain ⟨s', it', heq, hinv, _, _, _, _⟩ := find_pres hpos K v dist0
  rw [heq]
  exact hinv.core.dnodup

/-- C2: every result row has exactly `K` entries: the real records (each paired
with its final distance) followed by `K - m` placeholders picked by an ascending
scan over all indices that skips exactly the indices touched by this search,
each assigned the placeholder distance `inf`; placeholder indices are untouched
while every real record is touched, so no placeholder collides with a real
record. -/
theorem C2_row_exactly_K_with_placeholders {α : Type} [LinearOrderedField α]
    (adj : ℕ → List (ℕ × α)) (K v : ℕ) (dist0 : ℕ → α) :
    ∀ s it, find_nearest_neighbours adj K v dist0 = (s, it) →
      (resultRow adj K v dist0).length = K ∧
      resultRow adj K v dist0 =
        s.recs.map (fun r => (r, (padLoop s.touched (K + 1 - it) 0 s.dist).2 r)) ++
          (padLoop s.touched (K + 1 - it) 0 s.dist).1.map (fun i => (i, inf α)) ∧
      (padLoop s.touched (K + 1 - it) 0 s.dist).1.length = K - s.recs.length ∧
      (∀ i ∈ (padLoop s.touched (K + 1 - it) 0 s.dist).1, i ∉ s.touched) ∧
      (∀ r ∈ s.recs, r ∈ s.touched) ∧
      (∀ i ∈ (padLoop s.touched (K + 1 - it) 0 s.dist).1, i ∉ s.recs) ∧
      (padLoop s.touched (K + 1 - it) 0 s.dist).1.Sorted (· < ·) ∧
      (∀ i ∈ (padLoop s.touched (K + 1 - it) 0 s.dist).1, ∀ j, j < i → j ∉ s.touched →
        j ∈ (padLoop s.touched (K + 1 - it) 0 s.dist).1) := by
  intro s it heq
  obtain ⟨hit1, hit2, hit3, hrt, _⟩ := find_it_eq adj K v dist0
  rw [heq] at hit1 hit2 hit3 hrt
  simp only at hit1 hit2 hit3 hrt
  obtain ⟨hp1, hp2, hp3, hp4, hp5, hp6⟩ := padLoop_spec s.touched (K + 1 - it) 0 s.dist
  refine ⟨resultRow_length adj K v dist0, ?_, ?_, fun i hi => (hp2 i hi).1, hrt, ?_, hp3, ?_⟩
  · rw [resultRow_eq heq, List.map_append]
    congr 1
    apply List.map_congr_left
    intro i hi
    have hne : (padLoop s.touched (K + 1 - it) 0 s.dist).2 i = inf α := hp5 i hi
    rw [hne]
  · rw [hp1]
    omega
  · intro i hi hbad
    exact (hp2 i hi).1 (hrt i hbad)
  · intro i hi j hj hjt
    exact hp4 i hi j (Nat.zero_le j) hj hjt

/-- C8: each search is a finite bounded computation — the expansion loop performs
at most `K + 1` extractions — and when `K` is at least the number of vertices of
the source's component (source included), the frontier empties before `K + 1`
extractions and the search completes normally: the row still has exactly `K`
entries. -/
theorem C8_bounded_and_graceful {α : Type} [LinearOrderedField α]
    (adj : ℕ → List (ℕ × α)) (n K v : ℕ) (dist0 : ℕ → α) (hK : 0 < K)
    (hpos : ∀ u, ∀ e ∈ adj u, (0 : α) < e.2)
    (hrange : ∀ w, ∀ e ∈ adj w, e.1 < n) :
    (find_nearest_neighbours adj K v dist0).2 ≤ K + 1 ∧
    (Set.ncard {u | Reach adj v u} ≤ K →
      (find_nearest_neighbours adj K v dist0).2 ≤ K ∧
      (find_nearest_neighbours adj K v dist0).1.frontier = [] ∧
      (resultRow adj K v dist0).length = K) := by
  obtain ⟨s', it', heq, hinv, hlen, h1, h2, hempty⟩ := find_pres hpos K v dist0
  rw [heq]
  refine ⟨h2, ?_⟩
  intro hcard
  have hsub : ∀ x ∈ v :: s'.recs, x ∈ {u | Reach adj v u} := by
    intro x hx
    exact hinv.core.treach x (hinv.core.dtouch x hx)
  have hle : (v :: s'.recs).length ≤ Set.ncard {u | Reach adj v u} :=
    length_le_ncard hinv.core.dnodup (reach_set_finite hrange) hsub
  rw [List.length_cons] at hle
  have hitK : it' ≤ K := by omega
  exact ⟨hitK, hempty (by omega), resultRow_length adj K v dist0⟩

/-- C1 (amended): over any graph whose edges have positive distances and target
indices below `n`, the real records of the result row for `v` (the extractions
after the first, each paired with its final distance) are the true
`min(K, number of other vertices reachable from v within the sentinel distance
inf = 1e15)` nearest vertices to `v` by shortest-path distance, listed in
non-decreasing distance order, each paired with its true shortest-path distance
from `v`; any reachable-within-the-sentinel vertex left out lies at least as far
as every recorded one. -/
theorem C1_records_are_true_nearest {α : Type} [LinearOrderedField α]
    (adj : ℕ → List (ℕ × α)) (n K v : ℕ) (dist0 : ℕ → α)
    (hpos : ∀ u, ∀ e ∈ adj u, (0 : α) < e.2)
    (hrange : ∀ w, ∀ e ∈ adj w, e.1 < n) :
    ∀ s it, find_nearest_neighbours adj K v dist0 = (s, it) →
      (resultRow adj K v dist0).take s.recs.length =
        s.recs.map (fun r => (r, s.dist r)) ∧
      s.recs.length = min K (Set.ncard {u | u ≠ v ∧ ReachIn adj v u}) ∧
      (∀ r ∈ s.recs, ShortestDist adj v r (s.dist r)) ∧
      (s.recs.map s.dist).Sorted (· ≤ ·) ∧
      (∀ u, u ∉ v :: s.recs →
        ∀ l, IsWalk adj v l → walkEnd v l = u → walkWeight l < inf α →
          ∀ r ∈ s.recs, s.dist r ≤ walkWeight l) := by
  intro s it heq
  obtain ⟨s', it', heq', hinv, hlen, h1, h2, hempty⟩ := find_pres hpos K v dist0
  rw [heq] at heq'
  injection heq' with hs hit
  subst hs
  subst hit
  have hvD : v ∈ v :: s.recs := List.mem_cons_self _ _
  have hnd : (v :: s.recs).Nodup := hinv.core.dnodup
  have hvnotin : v ∉ s.recs := (List.nodup_cons.mp hnd).1
  have hrecsnd : s.recs.Nodup := (List.nodup_cons.mp hnd).2
  have hsubRI : ∀ r ∈ s.recs, r ∈ {u | u ≠ v ∧ ReachIn adj v u} := by
    intro r hr
    have hrD : r ∈ v :: s.recs := List.mem_cons_of_mem _ hr
    obtain ⟨⟨l, hw, hend, hwt⟩, _⟩ := hinv.core.dshort r hrD
    refine ⟨fun h => hvnotin (h ▸ hr), l, hw, hend, ?_⟩
    rw [hwt]
    exact hinv.core.dbound r hrD
  -- the "nearest" bound, which holds in every case
  have hnear : ∀ u, u ∉ v :: s.recs →
      ∀ l, IsWalk adj v l → walkEnd v l = u → walkWeight l < inf α →
        ∀ r ∈ s.recs, s.dist r ≤ walkWeight l := by
    intro u hu l hw hend hwb r hr
    obtain ⟨p, hp, hple⟩ := frontier_cover hpos hinv.core hinv.relaxed hvD hu hw hend hwb
    have := hinv.core.mono p hp r (List.mem_cons_of_mem _ hr)
    linarith
  refine ⟨?_, ?_, ?_, ?_, hnear⟩
  · rw [resultRow_eq heq, List.map_append]
    rw [List.take_left' (by rw [List.length_map])]
    apply List.map_congr_left
    intro r hr
    have hrt : r ∈ s.touched := hinv.core.dtouch r (List.mem_cons_of_mem _ hr)
    obtain ⟨_, hp2, _, _, _, hp6⟩ := padLoop_spec s.touched (K + 1 - it) 0 s.dist
    have hrp : r ∉ (padLoop s.touched (K + 1 - it) 0 s.dist).1 :=
      fun h => (hp2 r h).1 hrt
    rw [hp6 r hrp]
  · rcases Nat.lt_or_ge it (K + 1) with hlt | hge
    · -- the frontier emptied: everything reachable within the sentinel was extracted
      have hfr : s.frontier = [] := hempty hlt
      have hsup : ∀ x ∈ {u | u ≠ v ∧ ReachIn adj v u}, x ∈ s.recs := by
        rintro x ⟨hxv, l, hw, hend, hwb⟩
        by_cases hxD : x ∈ v :: s.recs
        · rcases List.mem_cons.mp hxD with h | h
          · exact absurd h hxv
          · exact h
        · obtain ⟨p, hp, _⟩ :=
            frontier_cover hpos hinv.core hinv.relaxed hvD hxD hw hend hwb
          rw [hfr] at hp
          cases hp
        
      have hL := length_eq_ncard hrecsnd hsubRI hsup
      rw [← hL]
      have : s.recs.length ≤ K := by omega
      omega
    · -- all `K + 1` extractions happened: exactly `K` records, at least `K` candidates
      have hitK : it = K + 1 := by omega
      have hLK : s.recs.length = K := by omega
      have hge2 : K ≤ Set.ncard {u | u ≠ v ∧ ReachIn adj v u} := by
        rw [← hLK]
        exact length_le_ncard hrecsnd (reachIn_set_finite hrange) hsubRI
      omega
  · intro r hr
    exact hinv.core.dshort r (List.mem_cons_of_mem _ hr)
  · have hs := hinv.core.dsorted
    rw [List.map_cons] at hs
    exact (List.sorted_cons.mp hs).2

/-! ## Vertex-id normalization (C3) -/

/-- Iterating `normalize_vertex_num` over a sequence of external ids: the final
mapping and the returned indices, in order. -/
def normalizeSeq (m : List (ℕ × ℕ)) : List ℕ → List (ℕ × ℕ) × List ℕ
  | [] => (m, [])
  | x :: xs =>
    let r := normalize_vertex_num m x
    let rest := normalizeSeq r.1 xs
    (rest.1, r.2 :: rest.2)

lemma normalizeSeq_fresh : ∀ (ids : List ℕ) (m : List (ℕ × ℕ)), ids.Nodup →
    (∀ i ∈ ids, m.lookup i = none) →
    (normalizeSeq m ids).2 = List.range' m.length ids.length := by
  intro ids
  induction ids with
  | nil =>
    intro m _ _
    rfl
  | cons x xs ih =>
    intro m hnd hfresh
    have hx : m.lookup x = none := hfresh x (List.mem_cons_self _ _)
    have hshape : normalizeSeq m (x :: xs) =
        ((normalizeSeq (m ++ [(x, m.length)]) xs).1,
          m.length :: (normalizeSeq (m ++ [(x, m.length)]) xs).2) := by
      show ((normalizeSeq (normalize_vertex_num m x).1 xs).1,
        (normalize_vertex_num m x).2 :: (normalizeSeq (normalize_vertex_num m x).1 xs).2) = _
      rw [normalize_vertex_num, hx]
    rw [hshape]
    have hfresh' : ∀ i ∈ xs, (m ++ [(x, m.length)]).lookup i = none := by
      intro i hi
      rw [List.lookup_append, hfresh i (List.mem_cons_of_mem _ hi)]
      have hne : i ≠ x := by
        intro h
        exact (List.nodup_cons.mp hnd).1 (h ▸ hi)
      have hb : (i == x) = false := beq_eq_false_iff_ne.mpr hne
      simp [List.lookup, hb]
    have := ih (m ++ [(x, m.length)]) (List.nodup_cons.mp hnd).2 hfresh'
    rw [List.length_cons, List.range'_succ]
    rw [this, List.length_append, List.length_singleton]

/-- C3: `normalize_vertex_num` assigns a first-time id the next unused index
(the current mapping size), returns the previously assigned index on a repeated
call (idempotent), and over any sequence of distinct external ids the produced
indices are exactly `0, 1, ..., n-1` in first-seen order. -/
theorem C3_normalize_dense_bijection :
    (∀ (m : List (ℕ × ℕ)) (vnum : ℕ), m.lookup vnum = none →
      normalize_vertex_num m vnum = (m ++ [(vnum, m.length)], m.length)) ∧
    (∀ (m : List (ℕ × ℕ)) (vnum idx : ℕ), m.lookup vnum = some idx →
      normalize_vertex_num m vnum = (m, idx)) ∧
    (∀ (m : List (ℕ × ℕ)) (vnum : ℕ),
      normalize_vertex_num (normalize_vertex_num m vnum).1 vnum =
        ((normalize_vertex_num m vnum).1, (normalize_vertex_num m vnum).2)) ∧
    (∀ ids : List ℕ, ids.Nodup → (normalizeSeq [] ids).2 = List.range ids.length) := by
  have h1 : ∀ (m : List (ℕ × ℕ)) (vnum : ℕ), m.lookup vnum = none →
      normalize_vertex_num m vnum = (m ++ [(vnum, m.length)], m.length) := by
    intro m vnum h
    rw [normalize_vertex_num, h]
  have h2 : ∀ (m : List (ℕ × ℕ)) (vnum idx : ℕ), m.lookup vnum = some idx →
      normalize_vertex_num m vnum = (m, idx) := by
    intro m vnum idx h
    rw [normalize_vertex_num, h]
  refine ⟨h1, h2, ?_, ?_⟩
  · intro m vnum
    cases hl : m.lookup vnum with
    | some idx =>
      rw [h2 m vnum idx hl]
      exact h2 m vnum idx hl
    | none =>
      rw [h1 m vnum hl]
      apply h2
      rw [List.lookup_append, hl]
      simp [List.lookup]
  · intro ids hnd
    have := normalizeSeq_fresh ids [] hnd (fun i _ => rfl)
    rw [this, List.range_eq_range']
    rfl

/-! ## The weight transform (C4) -/

lemma log_succ_pos {w : ℤ} (hw : 0 < w) : 0 < Real.log ((w : ℝ) + 1) := by
  apply Real.log_pos
  have : (1 : ℝ) ≤ (w : ℝ) := by exact_mod_cast hw
  linarith

/-- C4: for every positive integer raw weight, the transform returns
`100 / ln(w + 1)`, a positive real distance, and it is strictly decreasing in
the raw weight. -/
theorem C4_transform_positive_strictly_decreasing :
    (∀ w : ℤ, 0 < w →
      convert_edge_w_to_weight w = 100 / Real.log ((w : ℝ) + 1) ∧
      0 < convert_edge_w_to_weight w) ∧
    (∀ w1 w2 : ℤ, 0 < w1 → w1 < w2 →
      convert_edge_w_to_weight w2 < convert_edge_w_to_weight w1) := by
  constructor
  · intro w hw
    refine ⟨rfl, ?_⟩
    unfold convert_edge_w_to_weight
    have hlog := log_succ_pos hw
    positivity
  · intro w1 w2 hw1 hlt
    unfold convert_edge_w_to_weight
    have h1 := log_succ_pos hw1
    have h2 : Real.log ((w1 : ℝ) + 1) < Real.log ((w2 : ℝ) + 1) := by
      apply Real.log_lt_log
      · have : (1 : ℝ) ≤ (w1 : ℝ) := by exact_mod_cast hw1
        linarith
      · have : (w1 : ℝ) < (w2 : ℝ) := by exact_mod_cast hlt
        linarith
    exact div_lt_div_of_pos_left (by norm_num) h1 h2

/-! ## Graph construction: symmetry (C7) and weight ingestion (C5) -/

lemma pushEdge_same (g : ℕ → List (ℕ × α)) (u : ℕ) (e : ℕ × α) :
    pushEdge g u e u = g u ++ [e] := by
  unfold pushEdge
  exact Function.update_same u (g u ++ [e]) g

lemma pushEdge_other (g : ℕ → List (ℕ × α)) (u : ℕ) (e : ℕ × α) {x : ℕ} (h : x ≠ u) :
    pushEdge g u e x = g x := by
  unfold pushEdge
  exact Function.update_noteq h (g u ++ [e]) g

lemma count_pushEdge (g : ℕ → List (ℕ × α)) (u : ℕ) (e : ℕ × α) (x : ℕ) (q : ℕ × α) :
    ((pushEdge g u e) x).count q = (g x).count q + (if x = u ∧ q = e then 1 else 0) := by
  by_cases hx : x = u
  · subst hx
    rw [pushEdge_same, List.count_append]
    by_cases hq : q = e
    · simp [hq]
    · simp [hq, List.count_singleton']
  · rw [pushEdge_other g u e hx]
    simp [hx]

/-- Mutual count symmetry of adjacency lists. -/
def SymCount (g : BuildGraph α) : Prop :=
  ∀ u w d, (g.adj u).count (w, d) = (g.adj w).count (u, d)

lemma processPair_adj (tf : ℤ → α) (src : ℕ) (g : BuildGraph α) (p : ℕ × ℤ) :
    (processPair tf src g p).adj =
      pushEdge (pushEdge g.adj src ((normalize_vertex_num g.mapping p.1).2, tf p.2))
        (normalize_vertex_num g.mapping p.1).2 (src, tf p.2) := rfl

lemma symCount_processPair (tf : ℤ → α) {g : BuildGraph α} (h : SymCount g)
    (src : ℕ) (p : ℕ × ℤ) : SymCount (processPair tf src g p) := by
  intro u w d
  rw [processPair_adj]
  rw [count_pushEdge, count_pushEdge, count_pushEdge, count_pushEdge, h u w d]
  have e1 : (u = src ∧ ((w, d) : ℕ × α) = ((normalize_vertex_num g.mapping p.1).2, tf p.2)) ↔
      (w = (normalize_vertex_num g.mapping p.1).2 ∧ ((u, d) : ℕ × α) = (src, tf p.2)) := by
    simp only [Prod.mk.injEq]
    tauto
  have e2 : (u = (normalize_vertex_num g.mapping p.1).2 ∧ ((w, d) : ℕ × α) = (src, tf p.2)) ↔
      (w = src ∧ ((u, d) : ℕ × α) = ((normalize_vertex_num g.mapping p.1).2, tf p.2)) := by
    simp only [Prod.mk.injEq]
    tauto
  rw [if_congr e1 rfl rfl, if_congr e2 rfl rfl]
  omega

lemma symCount_processRow (tf : ℤ → α) {g : BuildGraph α} (h : SymCount g)
    (row : ℕ × List (ℕ × ℤ)) : SymCount (processRow tf g row) := by
  unfold processRow
  have : ∀ (ps : List (ℕ × ℤ)) (src : ℕ) (g0 : BuildGraph α), SymCount g0 →
      SymCount (ps.foldl (processPair tf src) g0) := by
    intro ps
    induction ps with
    | nil => intro src g0 h0; exact h0
    | cons p rest ih =>
      intro src g0 h0
      exact ih src _ (symCount_processPair tf h0 src p)
  exact this row.2 _ _ h

/-- C7: after the build pass, the graph is symmetric.  First part: each parsed
pair appends the edge exactly once per direction — once as `(dest, distance)` to
the source's list and once as `(src, distance)` to the destination's list, with
the same transformed distance, all other lists unchanged.  Second part: in the
built graph, `(w, d)` occurs in `u`'s list exactly as often as `(u, d)` occurs
in `w`'s list. -/
theorem C7_graph_symmetric {α : Type} [LinearOrderedField α] (tf : ℤ → α) :
    (∀ (g : BuildGraph α) (src : ℕ) (p : ℕ × ℤ),
      (normalize_vertex_num g.mapping p.1).2 ≠ src →
      (processPair tf src g p).adj src =
        g.adj src ++ [((normalize_vertex_num g.mapping p.1).2, tf p.2)] ∧
      (processPair tf src g p).adj (normalize_vertex_num g.mapping p.1).2 =
        g.adj (normalize_vertex_num g.mapping p.1).2 ++ [(src, tf p.2)] ∧
      (∀ x, x ≠ src → x ≠ (normalize_vertex_num g.mapping p.1).2 →
        (processPair tf src g p).adj x = g.adj x)) ∧
    (∀ (rows : List (ℕ × List (ℕ × ℤ))) (u w : ℕ) (d : α),
      ((read_graph tf rows).adj u).count (w, d) = ((read_graph tf rows).adj w).count (u, d)) := by
  constructor
  · intro g src p hne
    refine ⟨?_, ?_, ?_⟩
    · rw [processPair_adj]
      rw [pushEdge_other _ _ _ (Ne.symm hne), pushEdge_same]
    · rw [processPair_adj]
      rw [pushEdge_same, pushEdge_other _ _ _ hne]
    · intro x hx1 hx2
      rw [processPair_adj]
      rw [pushEdge_other _ _ _ hx2, pushEdge_other _ _ _ hx1]
  · intro rows
    have : ∀ (rs : List (ℕ × List (ℕ × ℤ))) (g0 : BuildGraph α), SymCount g0 →
        SymCount (rs.foldl (processRow tf) g0) := by
      intro rs
      induction rs with
      | nil => intro g0 h0; exact h0
      | cons r rest ih =>
        intro g0 h0
        exact ih _ (symCount_processRow tf h0 r)
    exact this rows ⟨[], fun _ => []⟩ (fun u w d => rfl)

/-- C5 (amended): ingestion performs no validation of raw weights.  Every parsed
pair, a non-positive weight included, is transformed and stored; no error is
raised (the build functions are total). -/
theorem C5_amended_no_weight_validation :
    ∀ (g : BuildGraph ℝ) (src d : ℕ) (w : ℤ), w ≤ 0 →
      (normalize_vertex_num g.mapping d).2 ≠ src →
      (processPair convert_edge_w_to_weight src g (d, w)).adj src =
        g.adj src ++ [((normalize_vertex_num g.mapping d).2, convert_edge_w_to_weight w)] ∧
      (processPair convert_edge_w_to_weight src g (d, w)).adj
          (normalize_vertex_num g.mapping d).2 =
        g.adj (normalize_vertex_num g.mapping d).2 ++ [(src, convert_edge_w_to_weight w)] := by
  intro g src d w _ hne
  constructor
  · rw [processPair_adj]
    rw [pushEdge_other _ _ _ (Ne.symm hne), pushEdge_same]
  · rw [processPair_adj]
    rw [pushEdge_same, pushEdge_other _ _ _ hne]

/-! ## Concrete instances -/

/-- A concrete two-vertex graph: indices `0` and `1` joined by an edge of
distance `1` (`N = 2`). -/
def adjTwo : ℕ → List (ℕ × ℚ) := fun u =>
  if u = 0 then [(1, 1)] else if u = 1 then [(0, 1)] else []

/-- A concrete graph with one edge whose distance `2e15` exceeds the sentinel
`inf = 1e15` (`N = 2`). -/
def adjBig : ℕ → List (ℕ × ℚ) := fun u => if u = 0 then [(1, 2e15)] else []

lemma adjTwo_pos : ∀ u, ∀ e ∈ adjTwo u, (0 : ℚ) < e.2 := by
  intro u e he
  unfold adjTwo at he
  split_ifs at he
  · rcases List.mem_singleton.mp he with rfl
    norm_num
  · rcases List.mem_singleton.mp he with rfl
    norm_num
  · cases he

lemma adjTwo_range : ∀ w, ∀ e ∈ adjTwo w, e.1 < 2 := by
  intro w e he
  unfold adjTwo at he
  split_ifs at he
  · rcases List.mem_singleton.mp he with rfl
    norm_num
  · rcases List.mem_singleton.mp he with rfl
    norm_num
  · cases he

lemma adjBig_pos : ∀ u, ∀ e ∈ adjBig u, (0 : ℚ) < e.2 := by
  intro u e he
  unfold adjBig at he
  split_ifs at he
  · rcases List.mem_singleton.mp he with rfl
    norm_num
  · cases he

lemma adjBig_range : ∀ w, ∀ e ∈ adjBig w, e.1 < 2 := by
  intro w e he
  unfold adjBig at he
  split_ifs at he
  · rcases List.mem_singleton.mp he with rfl
    norm_num
  · cases he

/-- The distance array after the first relaxation of the `adjTwo` run from `0`. -/
def distTwoA : ℕ → ℚ :=
  Function.update (Function.update (fun _ => (0 : ℚ)) 0 0) 1 1

set_option maxHeartbeats 3000000 in
/-- The final state of the `adjTwo` search from source `0` with `K = 2`. -/
lemma adjTwo_run :
    find_nearest_neighbours adjTwo 2 0 (fun _ => (0 : ℚ)) =
      ({ touched := insert 1 {0}, dist := distTwoA, frontier := [], recs := [1] }, 2) := by
  have hv : Function.update (fun _ => (0 : ℚ)) 0 0 0 + 1 = 1 := by
    rw [Function.update_same]
    norm_num
  have hstepA : find_nearest_neighbours adjTwo 2 0 (fun _ => (0 : ℚ)) =
      searchLoop adjTwo 2 1
        ({ touched := insert 1 {0}, dist := distTwoA, frontier := [(1, 1)], recs := [] }) := by
    rw [find_unfold]
    congr 1
    have hfr : (setErase ((0 : ℚ), 0) (initState (fun _ => (0 : ℚ)) 0).frontier) = [] := by
      show setErase ((0 : ℚ), 0) [((0 : ℚ), 0)] = []
      unfold setErase
      exact List.erase_cons_head _ _
    show List.foldl (relaxEdge 0)
      { initState (fun _ => (0 : ℚ)) 0 with
        frontier := setErase ((0 : ℚ), 0) (initState (fun _ => (0 : ℚ)) 0).frontier }
      (adjTwo 0) = _
    rw [hfr]
    show relaxEdge 0
      { touched := {0}, dist := Function.update (fun _ => (0 : ℚ)) 0 0,
        frontier := [], recs := [] } (1, 1) = _
    rcases relaxEdge_cases 0
        ({ touched := {0}, dist := Function.update (fun _ => (0 : ℚ)) 0 0,
           frontier := [], recs := [] }) (1, 1)
        (Finset.mem_singleton_self 0) (by norm_num) with
      ⟨ht, _, _⟩ | ⟨ht, _, _, _⟩ | ⟨_, _, heq⟩ | ⟨_, hnlt, _⟩
    · exact absurd (Finset.mem_singleton.mp ht) (by norm_num)
    · exact absurd (Finset.mem_singleton.mp ht) (by norm_num)
    · rw [heq]
      show (⟨insert 1 {0},
        Function.update (Function.update (fun _ => (0 : ℚ)) 0 0) 1
          (Function.update (fun _ => (0 : ℚ)) 0 0 0 + 1),
        setInsert (Function.update (fun _ => (0 : ℚ)) 0 0 0 + 1, 1) (setErase (inf ℚ, 1) []),
        []⟩ : SearchState ℚ) = _
      rw [hv]
      rfl
    · exfalso
      apply hnlt
      show Function.update (fun _ => (0 : ℚ)) 0 0 0 + 1 < inf ℚ
      rw [Function.update_same, inf]
      norm_num
  rw [hstepA]
  have hrelax : relaxNeighbours adjTwo 1
      ({ touched := insert 1 {0}, dist := distTwoA, frontier := [], recs := [] }) =
      ({ touched := insert 1 {0}, dist := distTwoA, frontier := [], recs := [] }
        : SearchState ℚ) := by
    show relaxEdge 1
      ({ touched := insert 1 {0}, dist := distTwoA, frontier := [], recs := [] }) (0, 1) = _
    rcases relaxEdge_cases 1
        ({ touched := insert 1 {0}, dist := distTwoA, frontier := [], recs := [] }) (0, 1)
        (Finset.mem_insert_self 1 _) (by norm_num) with
      ⟨_, _, heq⟩ | ⟨_, hlt, _, _⟩ | ⟨ht, _, _⟩ | ⟨ht, _, _⟩
    · exact heq
    · exfalso
      revert hlt
      show ¬ distTwoA 1 + (1 : ℚ) < distTwoA 0
      have h1 : distTwoA 1 = 1 := Function.update_same _ _ _
      have h0 : distTwoA 0 = 0 := by
        unfold distTwoA
        rw [Function.update_noteq (by norm_num), Function.update_same]
      rw [h1, h0]
      norm_num
    · exact absurd (Finset.mem_insert.mpr (Or.inr (Finset.mem_singleton_self 0))) ht
    · exact absurd (Finset.mem_insert.mpr (Or.inr (Finset.mem_singleton_self 0))) ht
  have hstepB : searchLoop adjTwo 2 1
      ({ touched := insert 1 {0}, dist := distTwoA, frontier := [(1, 1)], recs := [] }
        : SearchState ℚ) =
      searchLoop adjTwo 1 2
        ({ touched := insert 1 {0}, dist := distTwoA, frontier := [], recs := [1] }) := by
    rw [searchLoop_succ]
    have hm : extractMin [((1 : ℚ), 1)] = some (1, 1) := rfl
    rw [hm]
    simp only [if_pos Nat.one_pos]
    congr 1
    have hfr : setErase ((1 : ℚ), 1) [((1 : ℚ), 1)] = [] := by
      unfold setErase
      exact List.erase_cons_head _ _
    show { relaxNeighbours adjTwo 1
        ({ touched := insert 1 {0}, dist := distTwoA,
           frontier := setErase ((1 : ℚ), 1) [((1 : ℚ), 1)], recs := [] }) with
      recs := (relaxNeighbours adjTwo 1
        ({ touched := insert 1 {0}, dist := distTwoA,
           frontier := setErase ((1 : ℚ), 1) [((1 : ℚ), 1)], recs := [] })).recs ++ [1] } = _
    rw [hfr, hrelax]
    rfl
  rw [hstepB]
  exact searchLoop_none 0 2 rfl

set_option maxHeartbeats 3000000 in
/-- The final state of the `adjBig` search from source `0` with `K = 1`: the
edge distance `2e15` is at least the sentinel, so vertex `1` is touched but
never enqueued, and no real record is produced. -/
lemma adjBig_run :
    find_nearest_neighbours adjBig 1 0 (fun _ => (0 : ℚ)) =
      ({ touched := insert 1 {0},
         dist := Function.update (Function.update (fun _ => (0 : ℚ)) 0 0) 1 (inf ℚ),
         frontier := [], recs := [] }, 1) := by
  have hstepA : find_nearest_neighbours adjBig 1 0 (fun _ => (0 : ℚ)) =
      searchLoop adjBig 1 1
        ({ touched := insert 1 {0},
           dist := Function.update (Function.update (fun _ => (0 : ℚ)) 0 0) 1 (inf ℚ),
           frontier := [], recs := [] }) := by
    rw [find_unfold]
    congr 1
    have hfr : (setErase ((0 : ℚ), 0) (initState (fun _ => (0 : ℚ)) 0).frontier) = [] := by
      show setErase ((0 : ℚ), 0) [((0 : ℚ), 0)] = []
      unfold setErase
      exact List.erase_cons_head _ _
    show List.foldl (relaxEdge 0)
      { initState (fun _ => (0 : ℚ)) 0 with
        frontier := setErase ((0 : ℚ), 0) (initState (fun _ => (0 : ℚ)) 0).frontier }
      (adjBig 0) = _
    rw [hfr]
    show relaxEdge 0
      { touched := {0}, dist := Function.update (fun _ => (0 : ℚ)) 0 0,
        frontier := [], recs := [] } (1, 2e15) = _
    rcases relaxEdge_cases 0
        ({ touched := {0}, dist := Function.update (fun _ => (0 : ℚ)) 0 0,
           frontier := [], recs := [] }) (1, 2e15)
        (Finset.mem_singleton_self 0) (by norm_num) with
      ⟨ht, _, _⟩ | ⟨ht, _, _, _⟩ | ⟨_, hlt, _⟩ | ⟨_, _, heq⟩
    · exact absurd (Finset.mem_singleton.mp ht) (by norm_num)
    · exact absurd (Finset.mem_singleton.mp ht) (by norm_num)
    · exfalso
      revert hlt
      show ¬ Function.update (fun _ => (0 : ℚ)) 0 0 0 + (2e15 : ℚ) < inf ℚ
      rw [Function.update_same, inf]
      norm_num
    · rw [heq]
  rw [hstepA]
  exact searchLoop_none 0 1 rfl

/-- The whole reachable set of `adjBig` from `0` other than the source is `{1}` —
yet the search records nothing, because the edge distance reaches the sentinel. -/
lemma adjBig_reach : {u | u ≠ 0 ∧ Reach adjBig 0 u} = {1} := by
  ext u
  simp only [Set.mem_setOf_eq, Set.mem_singleton_iff]
  constructor
  · rintro ⟨hu, l, hw, hend⟩
    have hstep : ∀ (l : List (ℕ × ℚ)) (x : ℕ), (x = 0 ∨ x = 1) → IsWalk adjBig x l →
        walkEnd x l = 0 ∨ walkEnd x l = 1 := by
      intro l2
      induction l2 with
      | nil =>
        intro x hx _
        exact hx
      | cons e rest ih =>
        intro x hx hw2
        rcases hx with rfl | rfl
        · have he : e ∈ adjBig 0 := hw2.1
          have heq : e = (1, 2e15) := by
            unfold adjBig at he
            rw [if_pos rfl] at he
            exact List.mem_singleton.mp he
          have h2 := ih e.1 (Or.inr (by rw [heq])) hw2.2
          exact h2
        · have he : e ∈ adjBig 1 := hw2.1
          unfold adjBig at he
          rw [if_neg (by norm_num)] at he
          cases he
    rcases hstep l 0 (Or.inl rfl) hw with h | h
    · rw [hend] at h
      exact absurd h hu
    · rw [hend] at h
      exact h
  · rintro rfl
    refine ⟨by norm_num, [(1, 2e15)], ⟨?_, trivial⟩, rfl⟩
    unfold adjBig
    rw [if_pos rfl]
    exact List.mem_singleton_self _

lemma adjBig_ncard : Set.ncard {u | u ≠ 0 ∧ Reach adjBig 0 u} = 1 := by
  rw [adjBig_reach]
  exact Set.ncard_singleton 1

/-- Everything reachable from `0` in `adjTwo` lies in `{0, 1}`. -/
lemma adjTwo_reach : {u | Reach adjTwo 0 u} ⊆ {0, 1} := by
  intro u hu
  obtain ⟨l, hw, hend⟩ := hu
  have hstep : ∀ (l : List (ℕ × ℚ)) (x : ℕ), (x = 0 ∨ x = 1) → IsWalk adjTwo x l →
      walkEnd x l = 0 ∨ walkEnd x l = 1 := by
    intro l2
    induction l2 with
    | nil =>
      intro x hx _
      exact hx
    | cons e rest ih =>
      intro x hx hw2
      rcases hx with rfl | rfl
      · have he : e ∈ adjTwo 0 := hw2.1
        have heq : e = (1, 1) := by
          unfold adjTwo at he
          rw [if_pos rfl] at he
          exact List.mem_singleton.mp he
        exact ih e.1 (Or.inr (by rw [heq])) hw2.2
      · have he : e ∈ adjTwo 1 := hw2.1
        have heq : e = (0, 1) := by
          unfold adjTwo at he
          rw [if_neg (by norm_num), if_pos rfl] at he
          exact List.mem_singleton.mp he
        exact ih e.1 (Or.inl (by rw [heq])) hw2.2
  rcases hstep l 0 (Or.inl rfl) hw with h | h
  · rw [hend] at h
    exact Set.mem_insert_iff.mpr (Or.inl h)
  · rw [hend] at h
    exact Set.mem_insert_iff.mpr (Or.inr (Set.mem_singleton_iff.mpr h))

lemma adjTwo_ncard_le : Set.ncard {u | Reach adjTwo 0 u} ≤ 2 := by
  have h := Set.ncard_le_ncard adjTwo_reach
    ((Set.finite_singleton 1).insert 0)
  rwa [Set.ncard_pair (by norm_num : (0 : ℕ) ≠ 1)] at h

/-- The placeholder scan of the `adjTwo` run from `0`: indices `0` and `1` are
touched, so the first untouched index is `2 = N`. -/
lemma scanTwo : scanUntouched (insert 1 ({0} : Finset ℕ)) 0 = 2 := by
  rw [scanUntouched, if_pos (by simp)]
  rw [scanUntouched, if_pos (by simp)]
  rw [scanUntouched, if_neg (by simp)]

lemma padTwo : padLoop (insert 1 ({0} : Finset ℕ)) 1 0 distTwoA =
    ([2], Function.update distTwoA 2 (inf ℚ)) := by
  show ((scanUntouched (insert 1 {0}) 0) :: ([] : List ℕ),
    Function.update distTwoA (scanUntouched (insert 1 {0}) 0) (inf ℚ)) = _
  rw [scanTwo]

/-- C6 counterexample: on the two-vertex graph (`N = 2`) with `K = 2`, the
component covers the whole graph, yet a placeholder entry `(2, inf)` with index
`2 ∉ [0, N)` is emitted — the scan does find "untouched" indices beyond the
graph, and padding is not skipped. -/
theorem C6_counterexample_out_of_range_placeholder :
    resultRow adjTwo 2 0 (fun _ => (0 : ℚ)) = [(1, 1), (2, inf ℚ)] ∧ ¬ ((2 : ℕ) < 2) := by
  constructor
  · rw [resultRow_eq adjTwo_run]
    show (([1] ++ (padLoop (insert 1 {0}) 1 0 distTwoA).1).map
      fun i => (i, (padLoop (insert 1 {0}) 1 0 distTwoA).2 i)) = _
    rw [padTwo]
    show [((1 : ℕ), Function.update distTwoA 2 (inf ℚ) 1),
          ((2 : ℕ), Function.update distTwoA 2 (inf ℚ) 2)] = _
    rw [Function.update_same, Function.update_noteq (by norm_num)]
    have h1 : distTwoA 1 = 1 := Function.update_same _ _ _
    rw [h1]
  · decide

/-- C6 (amended): when every index below `n` is touched by the search, the
placeholder scan runs past the graph: every emitted placeholder index is `≥ n`
(outside `[0, n)`), and the row still has exactly `K` entries. -/
theorem C6_amended_scan_runs_past_graph {α : Type} [LinearOrderedField α]
    (adj : ℕ → List (ℕ × α)) (n K v : ℕ) (dist0 : ℕ → α) :
    ∀ s it, find_nearest_neighbours adj K v dist0 = (s, it) →
      (∀ i, i < n → i ∈ s.touched) →
      (∀ i ∈ (padLoop s.touched (K + 1 - it) 0 s.dist).1, n ≤ i) ∧
      (resultRow adj K v dist0).length = K := by
  intro s it heq htch
  obtain ⟨_, hp2, _, _, _, _⟩ := padLoop_spec s.touched (K + 1 - it) 0 s.dist
  refine ⟨?_, resultRow_length adj K v dist0⟩
  intro i hi
  by_contra hlt
  push_neg at hlt
  exact (hp2 i hi).1 (htch i hlt)

/-- C5 counterexample: a row with the non-positive raw weight `0` is ingested
without any error, and the transformed value `100 / ln(0 + 1)` is stored in both
adjacency lists — nothing is rejected or skipped. -/
theorem C5_counterexample_nonpositive_weight_stored :
    (0 : ℤ) ≤ 0 ∧
    (read_graph convert_edge_w_to_weight [(10, [(20, 0)])]).adj 0 =
      [(1, convert_edge_w_to_weight 0)] ∧
    (read_graph convert_edge_w_to_weight [(10, [(20, 0)])]).adj 0 ≠ [] := by
  refine ⟨le_refl _, rfl, ?_⟩
  intro h
  rw [show (read_graph convert_edge_w_to_weight [(10, [(20, 0)])]).adj 0 =
    [(1, convert_edge_w_to_weight 0)] from rfl] at h
  cases h

/-- C1 counterexample: on a graph with a positive edge distance `2e15` that is
at least the sentinel `inf = 1e15`, the search from `0` with `K = 1` produces no
real record although one other vertex is reachable, so the record count differs
from `min(K, number of reachable other vertices)`. -/
theorem C1_counterexample_sentinel_truncation :
    (∀ u, ∀ e ∈ adjBig u, (0 : ℚ) < e.2) ∧
    (∀ w, ∀ e ∈ adjBig w, e.1 < 2) ∧
    (find_nearest_neighbours adjBig 1 0 (fun _ => (0 : ℚ))).1.recs.length ≠
      min 1 (Set.ncard {u | u ≠ 0 ∧ Reach adjBig 0 u}) := by
  refine ⟨adjBig_pos, adjBig_range, ?_⟩
  rw [adjBig_run, adjBig_ncard]
  decide

/-- C10 (supporting the code-bug diagnosis): the searches from sources `0` and
`1` both mark index `1` in the touched/generation array — the scratch arrays
`current_time_` and `current_distance_` are written by both searches, which run
concurrently under the `omp parallel for`, on the single shared `dijkstra`
object. -/
theorem C10_shared_scratch_written_by_two_searches :
    1 ∈ (find_nearest_neighbours adjTwo 2 0 (fun _ => (0 : ℚ))).1.touched ∧
    1 ∈ (find_nearest_neighbours adjTwo 2 1 (fun _ => (0 : ℚ))).1.touched := by
  constructor
  · rw [adjTwo_run]
    simp
  · exact find_source_touched 2 1 (fun _ => (0 : ℚ))

/-! ## Witnesses: the claim theorems applied at concrete inputs -/

/-- Witness for C9 on the concrete two-vertex graph. -/
theorem C9_witness :
    (∀ u, ∀ e ∈ adjTwo u, (0 : ℚ) < e.2) ∧
    ((0 : ℕ) :: (find_nearest_neighbours adjTwo 2 0 (fun _ => (0 : ℚ))).1.recs).Nodup :=
  ⟨adjTwo_pos, C9_no_vertex_extracted_twice adjTwo 2 0 (fun _ => (0 : ℚ)) adjTwo_pos⟩

/-- Witness for C2 on the concrete two-vertex graph. -/
theorem C2_witness :
    find_nearest_neighbours adjTwo 2 0 (fun _ => (0 : ℚ)) =
      ((find_nearest_neighbours adjTwo 2 0 (fun _ => (0 : ℚ))).1,
       (find_nearest_neighbours adjTwo 2 0 (fun _ => (0 : ℚ))).2) ∧
    (resultRow adjTwo 2 0 (fun _ => (0 : ℚ))).length = 2 :=
  ⟨rfl, (C2_row_exactly_K_with_placeholders adjTwo 2 0 (fun _ => (0 : ℚ))
    (find_nearest_neighbours adjTwo 2 0 (fun _ => (0 : ℚ))).1
    (find_nearest_neighbours adjTwo 2 0 (fun _ => (0 : ℚ))).2 rfl).1⟩

/-- Witness for C8 on the concrete two-vertex graph with `K = 2 ≥` component size. -/
theorem C8_witness :
    (0 : ℕ) < 2 ∧ (∀ u, ∀ e ∈ adjTwo u, (0 : ℚ) < e.2) ∧
    (∀ w, ∀ e ∈ adjTwo w, e.1 < 2) ∧
    Set.ncard {u | Reach adjTwo 0 u} ≤ 2 ∧
    ((find_nearest_neighbours adjTwo 2 0 (fun _ => (0 : ℚ))).2 ≤ 2 ∧
     (find_nearest_neighbours adjTwo 2 0 (fun _ => (0 : ℚ))).1.frontier = [] ∧
     (resultRow adjTwo 2 0 (fun _ => (0 : ℚ))).length = 2) :=
  ⟨by decide, adjTwo_pos, adjTwo_range, adjTwo_ncard_le,
    (C8_bounded_and_graceful adjTwo 2 2 0 (fun _ => (0 : ℚ)) (by decide) adjTwo_pos
      adjTwo_range).2 adjTwo_ncard_le⟩

/-- Witness for C1 on the concrete two-vertex graph. -/
theorem C1_witness :
    (∀ u, ∀ e ∈ adjTwo u, (0 : ℚ) < e.2) ∧ (∀ w, ∀ e ∈ adjTwo w, e.1 < 2) ∧
    find_nearest_neighbours adjTwo 2 0 (fun _ => (0 : ℚ)) =
      ((find_nearest_neighbours adjTwo 2 0 (fun _ => (0 : ℚ))).1,
       (find_nearest_neighbours adjTwo 2 0 (fun _ => (0 : ℚ))).2) ∧
    (find_nearest_neighbours adjTwo 2 0 (fun _ => (0 : ℚ))).1.recs.length =
      min 2 (Set.ncard {u | u ≠ 0 ∧ ReachIn adjTwo 0 u}) :=
  ⟨adjTwo_pos, adjTwo_range, rfl,
    (C1_records_are_true_nearest adjTwo 2 2 0 (fun _ => (0 : ℚ)) adjTwo_pos adjTwo_range
      (find_nearest_neighbours adjTwo 2 0 (fun _ => (0 : ℚ))).1
      (find_nearest_neighbours adjTwo 2 0 (fun _ => (0 : ℚ))).2 rfl).2.1⟩

/-- Witness for the amended C5: the pair `(20, 0)` with raw weight `0` at source
index `5` is stored. -/
theorem C5_amended_witness :
    ((0 : ℤ) ≤ 0) ∧
    (normalize_vertex_num ([] : List (ℕ × ℕ)) 20).2 ≠ 5 ∧
    (processPair convert_edge_w_to_weight 5 ⟨[], fun _ => []⟩ (20, 0)).adj 5 =
      [((normalize_vertex_num ([] : List (ℕ × ℕ)) 20).2, convert_edge_w_to_weight 0)] :=
  ⟨le_refl 0, by decide,
    (C5_amended_no_weight_validation ⟨[], fun _ => []⟩ 5 20 0 (le_refl 0) (by decide)).1⟩

/-- Witness for the amended C6 on the concrete two-vertex graph: every index
below `N = 2` is touched, and the padding indices all land at `≥ 2`. -/
theorem C6_amended_witness :
    find_nearest_neighbours adjTwo 2 0 (fun _ => (0 : ℚ)) =
      ((find_nearest_neighbours adjTwo 2 0 (fun _ => (0 : ℚ))).1,
       (find_nearest_neighbours adjTwo 2 0 (fun _ => (0 : ℚ))).2) ∧
    (∀ i, i < 2 → i ∈ (find_nearest_neighbours adjTwo 2 0 (fun _ => (0 : ℚ))).1.touched) ∧
    ((∀ i ∈ (padLoop (find_nearest_neighbours adjTwo 2 0 (fun _ => (0 : ℚ))).1.touched
        (2 + 1 - (find_nearest_neighbours adjTwo 2 0 (fun _ => (0 : ℚ))).2) 0
        (find_nearest_neighbours adjTwo 2 0 (fun _ => (0 : ℚ))).1.dist).1, 2 ≤ i) ∧
      (resultRow adjTwo 2 0 (fun _ => (0 : ℚ))).length = 2) := by
  have htch : ∀ i, i < 2 →
      i ∈ (find_nearest_neighbours adjTwo 2 0 (fun _ => (0 : ℚ))).1.touched := by
    rw [adjTwo_run]
    intro i hi
    interval_cases i <;> simp
  exact ⟨rfl, htch,
    C6_amended_scan_runs_past_graph adjTwo 2 2 0 (fun _ => (0 : ℚ))
      (find_nearest_neighbours adjTwo 2 0 (fun _ => (0 : ℚ))).1
      (find_nearest_neighbours adjTwo 2 0 (fun _ => (0 : ℚ))).2 rfl htch⟩

end SOMap
